import Mathlib

/-!
# Verification of the amsc-grad tensor/autodiff core

Shallow embedding of the C++ sources under `src/include` (tensor node,
backward engine, arithmetic/matmul operation library, row permutation,
`eye` initializer).  The numeric type `T` (a `std::floating_point`) is
modelled by an arbitrary commutative ring `R`: every operation the claims
exercise uses only `0`, `1`, addition and multiplication, so the
development holds uniformly for `ℝ`, `ℚ`, etc.  Concrete test-vector
claims are instantiated at `R = ℤ` (their values are small integers,
exactly representable in any of these carriers), which lets the kernel
evaluate them.

Mutable shared tensors (`std::shared_ptr<Tensor<T>>`) are modelled by a
state `State R := List (TensorNode R)`, a node being addressed by its
index; an operation appends its output node at the end, so a node's
parents always have smaller indices (this matches the spec: "a node can
only list already-existing nodes as parents").  The `grad_fn` closures
are modelled by a first-order tag `GradFn` recording the captured node
indices, with `applyGradFn` implementing each closure body.
-/

set_option autoImplicit false
set_option linter.unusedSectionVars false

namespace AmscGrad

/-- The backward closure attached to a node: the operation tag plus the
node indices (and scalars/dimensions) the C++ lambda captures. -/
inductive GradFn (R : Type) where
  | noop
  | add (a b out : Nat)
  | mulScalar (a : Nat) (c : R) (out : Nat)
  | mul (a b out : Nat)
  | broadcastAddFn (a b out : Nat) (N K : Nat)
  | matmulFn (A B out : Nat) (m n p : Nat)
  deriving DecidableEq

/-- One `Tensor<T>` record (metadata strings are omitted: they are
diagnostic only and no claim mentions them). -/
structure TensorNode (R : Type) where
  data : List R
  grad : List R
  hess : List R
  shape : List Nat
  requiresGrad : Bool
  prev : List Nat
  gradFn : GradFn R
  deriving DecidableEq

variable {R : Type} [CommRing R]

instance : Inhabited (TensorNode R) :=
  ⟨{ data := [], grad := [], hess := [], shape := [], requiresGrad := false,
     prev := [], gradFn := .noop }⟩

abbrev State (R : Type) := List (TensorNode R)

def getNode (s : State R) (i : Nat) : TensorNode R := s.getD i default

def modifyNode (s : State R) (i : Nat) (f : TensorNode R → TensorNode R) : State R :=
  s.set i (f (getNode s i))

/-- `total_size` as computed by the constructor body:
`for (auto dim: shape) total_size *= (dim > 0 ? dim : 1);` starting at 1. -/
def totalSizeOf (dims : List Nat) : Nat :=
  dims.foldl (fun acc d => acc * (if 0 < d then d else 1)) 1

/-- The product-of-dimensions size the spec prescribes for `data`
(dimensions equal to zero counted as one). -/
def specSize (shape : List Nat) : Nat := totalSizeOf shape

/-- The `Tensor` constructor (`tensor_core.hpp`).  C++ members initialize
in declaration order: `data` is move-initialized from the `data`
parameter first, then `grad`/`hess` are sized from the already-moved
`data` member (`requires_grad ? this->data.size() : 0`), and only then is
the member `shape` move-initialized from the `shape` parameter.  The
constructor body then iterates the *parameter* `shape` (which shadows the
member), but that vector has just been moved from — `std::vector`'s move
constructor leaves its source empty — so the loop runs zero times and
`total_size` stays 1; if `data` was supplied empty it is filled with
`total_size` zeros. -/
def mkTensor (shape : List Nat) (data : List R) (requiresGrad : Bool)
    (prev : List Nat) : TensorNode R :=
  let gradLen := if requiresGrad then data.length else 0
  let movedFromShape : List Nat := []
  let totalSize := totalSizeOf movedFromShape
  let data' := if data.isEmpty then List.replicate totalSize (0 : R) else data
  { data := data'
    grad := List.replicate gradLen 0
    hess := List.replicate gradLen 0
    shape := shape
    requiresGrad := requiresGrad
    prev := prev
    gradFn := .noop }

/-- The naive triple-loop kernel (`raw_matmul`, non-BLAS branch):
`c[i*p+j] = sum_k a[i*n+k]*b[k*p+j] + beta*c[i*p+j]` for `i < m`, `j < p`;
entries of `c` beyond `m*p` are untouched. -/
def rawMatmul (a b c : List R) (m n p : Nat) (beta : R) : List R :=
  c.mapIdx fun idx v =>
    if idx < m * p then
      let i := idx / p
      let j := idx % p
      ((List.range n).map fun k => a.getD (i * n + k) 0 * b.getD (k * p + j) 0).sum
        + beta * v
    else v

/-- `transpose(mat, rows, cols)`: `result[j*rows+i] = mat[i*cols+j]`. -/
def transposeBuf (mat : List R) (rows cols : Nat) : List R :=
  (List.range (cols * rows)).map fun idx =>
    mat.getD ((idx % rows) * cols + (idx / rows)) 0

/-- `tensor::ops::operator+` forward: shape check, element-wise sum, output
node wired to parents `[ia, ib]` with the `AddBackward` closure. -/
def opAdd (s : State R) (ia ib : Nat) : Except String (Nat × State R) :=
  let a := getNode s ia
  let b := getNode s ib
  if a.shape ≠ b.shape then .error "Tensors shapes do not match"
  else
    let outData := List.zipWith (· + ·) a.data b.data
    let node := { mkTensor a.shape outData (a.requiresGrad || b.requiresGrad) [ia, ib] with
                  gradFn := .add ia ib s.length }
    .ok (s.length, s ++ [node])

/-- `tensor::ops::operator*(a, scalar)` forward (no failure cases). -/
def opMulScalar (s : State R) (ia : Nat) (c : R) : Nat × State R :=
  let a := getNode s ia
  let outData := a.data.map (· * c)
  let node := { mkTensor a.shape outData a.requiresGrad [ia] with
                gradFn := .mulScalar ia c s.length }
  (s.length, s ++ [node])

/-- `tensor::ops::operator*(a, b)` (element-wise multiply) forward. -/
def opMul (s : State R) (ia ib : Nat) : Except String (Nat × State R) :=
  let a := getNode s ia
  let b := getNode s ib
  if a.shape ≠ b.shape then .error "Tensors shapes do not match"
  else
    let outData := List.zipWith (· * ·) a.data b.data
    let node := { mkTensor a.shape outData (a.requiresGrad || b.requiresGrad) [ia, ib] with
                  gradFn := .mul ia ib s.length }
    .ok (s.length, s ++ [node])

/-- `tensor::ops::broadcast_add` forward.  The C++ guard reads
`b->shape[0]` and `b->shape[1]` only (`operator[]` on a vector of rank
< 2 would be out of bounds — undefined behaviour — so theorems restrict
to `2 ≤ b.shape.length`); any further dimensions of `b` are never
inspected. -/
def opBroadcastAdd (s : State R) (ia ib : Nat) : Except String (Nat × State R) :=
  let a := getNode s ia
  let b := getNode s ib
  if b.shape.getD 0 0 ≠ 1 ∨ b.shape.getD 1 0 ≠ a.shape.getD 1 0 then
    .error "broadcast_add expects b to have shape (1, K)"
  else
    let N := a.shape.getD 0 0
    let K := a.shape.getD 1 0
    let outData := (List.range N).flatMap fun i =>
      (List.range K).map fun j => a.data.getD (i * K + j) 0 + b.data.getD j 0
    let node := { mkTensor [N, K] outData (a.requiresGrad || b.requiresGrad) [ia, ib] with
                  gradFn := .broadcastAddFn ia ib s.length N K }
    .ok (s.length, s ++ [node])

/-- `tensor::ops::matmul` forward. -/
def opMatmul (s : State R) (iA iB : Nat) : Except String (Nat × State R) :=
  let A := getNode s iA
  let B := getNode s iB
  if ¬(A.shape.length = 2 ∧ B.shape.length = 2) then
    .error "matmul only supports 2D tensors"
  else
    let m := A.shape.getD 0 0
    let n := A.shape.getD 1 0
    let p := B.shape.getD 1 0
    if n ≠ B.shape.getD 0 0 then .error "matmul shapes do not align"
    else
      let outData := rawMatmul A.data B.data (List.replicate (m * p) 0) m n p 0
      let node := { mkTensor [m, p] outData (A.requiresGrad || B.requiresGrad) [iA, iB] with
                    gradFn := .matmulFn iA iB s.length m n p }
      .ok (s.length, s ++ [node])

/-- Executes one stored backward closure, mutating the state exactly as the
corresponding C++ lambda mutates the captured tensors.  Reads are made
from the current state at the point of each branch (matching the
sequential execution of the two `if` branches in the lambdas). -/
def applyGradFn (g : GradFn R) (s : State R) : State R :=
  match g with
  | .noop => s
  | .add ia ib iout =>
      let s1 :=
        if (getNode s ia).requiresGrad then
          let out := getNode s iout
          modifyNode s ia fun a =>
            { a with grad := List.zipWith (fun x y => x + y) a.grad out.grad
                     hess := List.zipWith (fun x y => x + y) a.hess out.hess }
        else s
      if (getNode s1 ib).requiresGrad then
        let out := getNode s1 iout
        modifyNode s1 ib fun b =>
          { b with grad := List.zipWith (fun x y => x + y) b.grad out.grad
                   hess := List.zipWith (fun x y => x + y) b.hess out.hess }
      else s1
  | .mulScalar ia c iout =>
      if (getNode s ia).requiresGrad then
        let out := getNode s iout
        modifyNode s ia fun a =>
          { a with grad := List.zipWith (fun x y => x + y * c) a.grad out.grad
                   hess := List.zipWith (fun x y => x + y * c * c) a.hess out.hess }
      else s
  | .mul ia ib iout =>
      let s1 :=
        if (getNode s ia).requiresGrad then
          let b := getNode s ib
          let out := getNode s iout
          modifyNode s ia fun a =>
            -- loop bound: `i < a->grad.size()`
            { a with
              grad := a.grad.mapIdx fun i x =>
                if i < a.grad.length then x + out.grad.getD i 0 * b.data.getD i 0 else x
              hess := a.hess.mapIdx fun i x =>
                if i < a.grad.length then
                  x + out.hess.getD i 0 * b.data.getD i 0 * b.data.getD i 0
                else x }
        else s
      if (getNode s1 ib).requiresGrad then
        let a := getNode s1 ia
        let out := getNode s1 iout
        modifyNode s1 ib fun b =>
          -- loop bound of the source is `i < a->grad.size()` here as well
          { b with
            grad := b.grad.mapIdx fun i x =>
              if i < a.grad.length then x + out.grad.getD i 0 * a.data.getD i 0 else x
            hess := b.hess.mapIdx fun i x =>
              if i < a.grad.length then
                x + out.hess.getD i 0 * a.data.getD i 0 * a.data.getD i 0
              else x }
      else s1
  | .broadcastAddFn ia ib iout N K =>
      let s1 :=
        if (getNode s ia).requiresGrad then
          let out := getNode s iout
          modifyNode s ia fun a =>
            { a with
              grad := a.grad.mapIdx fun i x =>
                if i < N * K then x + out.grad.getD i 0 else x
              hess := a.hess.mapIdx fun i x =>
                if i < N * K then x + out.hess.getD i 0 else x }
        else s
      if (getNode s1 ib).requiresGrad then
        let out := getNode s1 iout
        modifyNode s1 ib fun b =>
          { b with
            grad := (List.range N).foldl (fun g i =>
              (List.range K).foldl (fun g j =>
                g.set j (g.getD j 0 + out.grad.getD (i * K + j) 0)) g) b.grad
            hess := (List.range N).foldl (fun h i =>
              (List.range K).foldl (fun h j =>
                h.set j (h.getD j 0 + out.hess.getD (i * K + j) 0)) h) b.hess }
      else s1
  | .matmulFn iA iB iout m n p =>
      let s1 :=
        if (getNode s iA).requiresGrad then
          let B := getNode s iB
          let out := getNode s iout
          let BT := transposeBuf B.data n p
          modifyNode s iA fun A =>
            { A with grad := rawMatmul out.grad BT A.grad m p n 1
                     hess := rawMatmul out.hess (BT.map fun x => x * x) A.hess m p n 1 }
        else s
      if (getNode s1 iB).requiresGrad then
        let A := getNode s1 iA
        let out := getNode s1 iout
        let AT := transposeBuf A.data m n
        modifyNode s1 iB fun B =>
          { B with grad := rawMatmul AT out.grad B.grad n m p 1
                   hess := rawMatmul (AT.map fun x => x * x) out.hess B.hess n m p 1 }
      else s1

/-- `build_graph` from `Tensor::backward`: if `v` is unvisited, mark it
visited, recurse into its parents in order (the
`for (auto &p: v->prev) build_graph(p);` loop is the fold), then append
`v` to the post-order list.  The recursion is bounded by explicit `fuel`;
since every parent index is smaller than its child's index,
`fuel = v + 1` never runs out (proved below). -/
def bgAux (s : State R) : Nat → Nat → List Nat × List Nat → List Nat × List Nat
  | 0, _, st => st
  | fuel + 1, v, st =>
      if v ∈ st.1 then st
      else
        let st' := (getNode s v).prev.foldl (fun acc p => bgAux s fuel p acc)
          (v :: st.1, st.2)
        (st'.1, st'.2 ++ [v])

/-- The parent loop of `build_graph`, named for the proofs below. -/
def bgList (s : State R) (fuel : Nat) (l : List Nat) (st : List Nat × List Nat) :
    List Nat × List Nat :=
  l.foldl (fun acc p => bgAux s fuel p acc) st

/-- The post-order node list built by one `backward` call starting at
`root` (the contents of the C++ `graph` vector). -/
def graphOf (s : State R) (root : Nat) : List Nat :=
  (bgAux s (root + 1) root ([], [])).2

/-- `Tensor::backward(clean_graph)`: build the post-order list, seed the
root's `grad` to ones and `hess` to zeros if it requires gradients,
execute each node's stored closure in reverse build order, and, when
`cleanGraph` is set, clear every visited node's parent list and closure. -/
def backward (s : State R) (root : Nat) (cleanGraph : Bool) : State R :=
  let graph := graphOf s root
  let s1 :=
    if (getNode s root).requiresGrad then
      modifyNode s root fun r =>
        { r with grad := r.grad.map fun _ => 1
                 hess := r.hess.map fun _ => 0 }
    else s
  let s2 := graph.reverse.foldl (fun st v => applyGradFn (getNode st v).gradFn st) s1
  if cleanGraph then
    graph.foldl (fun st v => modifyNode st v fun nd => { nd with prev := [], gradFn := .noop }) s2
  else s2

/-- Row `r` of a flat row-major buffer with `M` columns (the source of a
`std::copy` of one row). -/
def getRow (M r : Nat) (d : List R) : List R := (d.drop (r * M)).take M

/-- Overwrite row `r` of a flat row-major buffer with `M` columns (the
destination of a `std::copy` of one row). -/
def setRow (M r : Nat) (row d : List R) : List R :=
  d.take (r * M) ++ row ++ d.drop (r * M + M)

/-- The inner `while (!visited[current])` loop of `Tensor::permute_rows`,
with explicit fuel; each iteration marks one previously-unvisited row, so
`N + 1` fuel is never exhausted on states with `N` rows. -/
def permuteCycle (perm : List Nat) (M i : Nat) (temp : List R) :
    Nat → Nat → List Bool → List R → List Bool × List R
  | 0, _, visited, d => (visited, d)
  | fuel + 1, current, visited, d =>
      if visited.getD current true then (visited, d)
      else
        let visited' := visited.set current true
        let next := perm.getD current 0
        let d' :=
          if next = i then setRow M current temp d
          else setRow M current (getRow M next d) d
        permuteCycle perm M i temp fuel next visited' d'

/-- `Tensor::permute_rows`: requires a 2-D shape, then for each row index
`i` in order, if not yet visited, saves row `i` into `temp_row` and walks
the permutation cycle through `i` in place. -/
def permuteRows (t : TensorNode R) (perm : List Nat) : Except String (TensorNode R) :=
  if t.shape.length ≠ 2 then .error "permute_rows_ requires a 2D tensor"
  else
    let N := t.shape.getD 0 0
    let M := t.shape.getD 1 0
    let res := (List.range N).foldl
      (fun (acc : List Bool × List R) i =>
        if acc.1.getD i true then acc
        else permuteCycle perm M i (getRow M i acc.2) (N + 1) i acc.1 acc.2)
      (List.replicate N false, t.data)
    .ok { t with data := res.2 }

/-- `tensor::eye` on a square shape `{n, n}`: an `n*n` zero buffer with
`data[i*n + i] = 1` for each `i`, passed to the `Tensor` constructor. -/
def eyeData (n : Nat) : List R :=
  (List.range n).foldl (fun d i => d.set (i * n + i) 1) (List.replicate (n * n) (0 : R))

def eyeT (n : Nat) (requiresGrad : Bool) : TensorNode R :=
  mkTensor [n, n] (eyeData n) requiresGrad []

/-- Reachability from `u` along parent links (`u`'s ancestry in the
computational graph). -/
inductive Reaches (s : State R) : Nat → Nat → Prop where
  | refl (v : Nat) : Reaches s v v
  | step {u p w : Nat} : p ∈ (getNode s u).prev → Reaches s p w → Reaches s u w

/-- Well-formed graph: every node's parents have strictly smaller
indices.  Every state reachable through the library's own operations has
this shape (operations append their output after its operands), and it is
the spec's acyclicity invariant: "a node can only list already-existing
nodes as parents". -/
def WfGraph (s : State R) : Prop :=
  ∀ i, i < s.length → ∀ p ∈ (getNode s i).prev, p < i

/-- The parent indices a stored closure accumulates into. -/
def GradFn.writes : GradFn R → List Nat
  | .noop => []
  | .add a b _ => [a, b]
  | .mulScalar a _ _ => [a]
  | .mul a b _ => [a, b]
  | .broadcastAddFn a b _ _ _ => [a, b]
  | .matmulFn A B _ _ _ _ => [A, B]

/-- Well-formed state: parents precede their child, and each node's
stored closure only writes into indices below the node (its parents). -/
def WfState (s : State R) : Prop :=
  ∀ i, i < s.length →
    (∀ p ∈ (getNode s i).prev, p < i) ∧ (∀ w ∈ (getNode s i).gradFn.writes, w < i)

/-- Every element of a post-order list has all its parents strictly
earlier in the list. -/
def ClosedList (s : State R) (g : List Nat) : Prop :=
  ∀ j, (hj : j < g.length) → ∀ p ∈ (getNode s g[j]).prev, p ∈ g.take j

/-- Invariant of the `(visited, graph)` accumulator of `build_graph`. -/
structure DfsInv (s : State R) (st : List Nat × List Nat) : Prop where
  nodup : st.2.Nodup
  sub : ∀ x ∈ st.2, x ∈ st.1
  closed : ClosedList s st.2

/-- What one `build_graph(v)` call does to the accumulator. -/
structure DfsPost (s : State R) (v : Nat) (stIn stOut : List Nat × List Nat) : Prop where
  delta : ∃ Δ, stOut.2 = stIn.2 ++ Δ ∧ (∀ x ∈ Δ, x ∉ stIn.1) ∧
    (∀ x ∈ Δ, x ≤ v ∧ Reaches s v x) ∧ (∀ x, x ∈ stOut.1 ↔ x ∈ stIn.1 ∨ x ∈ Δ)
  mem_v : v ∈ stOut.2
  inv : DfsInv s stOut
  complete : ∀ u, Reaches s v u → u ∈ stOut.2

/-- What the parent loop (`for (auto &p: v->prev) build_graph(p);`) does
to the accumulator. -/
structure DfsListPost (s : State R) (l : List Nat) (stIn stOut : List Nat × List Nat) : Prop where
  delta : ∃ Δ, stOut.2 = stIn.2 ++ Δ ∧ (∀ x ∈ Δ, x ∉ stIn.1) ∧
    (∀ x ∈ Δ, ∃ p ∈ l, x ≤ p ∧ Reaches s p x) ∧ (∀ x, x ∈ stOut.1 ↔ x ∈ stIn.1 ∨ x ∈ Δ)
  mem_l : ∀ p ∈ l, p ∈ stOut.2
  inv : DfsInv s stOut
  complete : ∀ p ∈ l, ∀ u, Reaches s p u → u ∈ stOut.2

/-- A valid permutation of `[0, n)` given as a vector, as required by
`permute_rows`'s precondition. -/
def ValidPerm (n : Nat) (perm : List Nat) : Prop :=
  perm.length = n ∧ (∀ j ∈ perm, j < n) ∧ perm.Nodup

instance (s : State R) : Decidable (WfGraph s) := by
  unfold WfGraph
  infer_instance

instance (s : State R) : Decidable (WfState s) := by
  unfold WfState
  infer_instance

instance (n : Nat) (perm : List Nat) : Decidable (ValidPerm n perm) := by
  unfold ValidPerm
  infer_instance

/-! ## Claim C1 — elementwise-multiply backward -/

/-- C1: refuted (code bug).  The backward closure of `c = a * b` loops
`for (i = 0; i < a->grad.size(); ++i)` in the `b` branch as well; with
`a = [2]` not requiring gradients (`a->grad` empty) and `b = [3]`
requiring them, `backward` on `c` leaves `b.grad = [0]` although `c`'s
upstream gradient was seeded to `[1]` and the claim requires
`b.grad = [1 * 2] = [2]`. -/
theorem mul_backward_drops_b_grad :
    (opMul (R := ℤ) [mkTensor [1] [2] false [], mkTensor [1] [3] true []] 0 1).toOption.map
        (fun rs => ((getNode (backward rs.2 rs.1 true) 1).grad,
                    (getNode (backward rs.2 rs.1 true) 2).grad))
      = some ([0], [1]) := by
  decide

/-! ## Claim C2 — constructor with empty data -/

/-- C2: refuted (code bug).  Constructing a node with shape `[2, 3]` and
empty data fills `data` with a single zero (`total_size` is computed over
the moved-from, hence empty, `shape` parameter), not with
`product(shape) = 6` zeros as the claim states. -/
theorem constructor_empty_data_wrong_size :
    (mkTensor (R := ℤ) [2, 3] [] false []).data = [0] ∧ specSize [2, 3] = 6 := by
  decide

/-! ## Claim C3 — grad/hess length invariant -/

/-- C3: refuted (code bug).  For a constructor call with empty data and
`requires_grad = true`, `grad`/`hess` are sized from `data` *before* the
empty buffer is auto-filled, so the node ends with
`grad.length = hess.length = 0` while `data.length = 1`, violating
`grad.length == (requires_grad ? data.length : 0)`. -/
theorem constructor_empty_data_breaks_grad_invariant :
    (mkTensor (R := ℤ) [2] [] true []).requiresGrad = true ∧
    (mkTensor (R := ℤ) [2] [] true []).grad.length = 0 ∧
    (mkTensor (R := ℤ) [2] [] true []).hess.length = 0 ∧
    (mkTensor (R := ℤ) [2] [] true []).data.length = 1 := by
  decide

/-! ## Claim C7 — broadcast_add shape guard -/

/-- C7 counterexample: with `a` of shape `(2, 2)` and `b` of rank 3 with
shape `(1, 2, 3)`, `broadcast_add` succeeds even though `b` does not have
exactly shape `(1, K)`, refuting the claimed "if and only if". -/
theorem broadcastAdd_accepts_rank3_b :
    (opBroadcastAdd (R := ℤ)
        [mkTensor [2, 2] [1, 1, 1, 1] false [],
         mkTensor [1, 2, 3] [0, 0, 0, 0, 0, 0] false []] 0 1).isOk = true ∧
    (getNode (R := ℤ)
        [mkTensor [2, 2] [1, 1, 1, 1] false [],
         mkTensor [1, 2, 3] [0, 0, 0, 0, 0, 0] false []] 1).shape ≠ [1, 2] := by
  decide

/-- C7 amended: `broadcast_add(a, b)` with `a` of shape `(N, K)` raises
the shape error if and only if `b.shape[0] ≠ 1` or `b.shape[1] ≠ K`;
only the first two dimensions of `b` are inspected (operands of rank
less than 2 index `shape` out of bounds in the C++ and are outside the
modelled domain, whence the rank hypothesis). -/
theorem broadcastAdd_error_iff (s : State R) (ia ib : Nat) (N K : Nat)
    (ha : (getNode s ia).shape = [N, K])
    (_hb : 2 ≤ (getNode s ib).shape.length) :
    (∃ e, opBroadcastAdd s ia ib = .error e) ↔
      ¬((getNode s ib).shape.getD 0 0 = 1 ∧ (getNode s ib).shape.getD 1 0 = K) := by
  have hK : (getNode s ia).shape.getD 1 0 = K := by rw [ha]; rfl
  by_cases hc : (getNode s ib).shape.getD 0 0 ≠ 1 ∨
      (getNode s ib).shape.getD 1 0 ≠ (getNode s ia).shape.getD 1 0
  · simp only [opBroadcastAdd, if_pos hc]
    constructor
    · intro _
      rw [hK] at hc
      tauto
    · intro _
      exact ⟨_, rfl⟩
  · simp only [opBroadcastAdd, if_neg hc]
    push_neg at hc
    constructor
    · rintro ⟨e, he⟩
      simp at he
    · intro hcontra
      rw [hK] at hc
      exact absurd ⟨hc.1, hc.2⟩ hcontra

/-- Witness for `broadcastAdd_error_iff` at a concrete mismatched input:
`a` of shape `(2, 2)`, `b` of shape `(2, 2)` (so `b.shape[0] ≠ 1`). -/
theorem broadcastAdd_error_iff_witness :
    ∃ e, opBroadcastAdd (R := ℤ)
        [mkTensor [2, 2] [1, 1, 1, 1] false [],
         mkTensor [2, 2] [1, 1, 1, 1] false []] 0 1 = .error e := by
  exact (broadcastAdd_error_iff
      [mkTensor [2, 2] [1, 1, 1, 1] false [],
       mkTensor [2, 2] [1, 1, 1, 1] false []] 0 1 2 2 (by decide) (by decide)).mpr
    (by decide)

/-! ## Claim C8 — matmul concrete case -/

/-- C8: confirmed.  `matmul` on `A = [[1,2],[3,4]]`, `B = [[5,6],[7,8]]`
(both requiring gradients) forwards `[[19,22],[43,50]]`, and `backward`
on the product (which seeds a unit upstream gradient) accumulates
`grad(A) = [[11,15],[11,15]]` and `grad(B) = [[4,4],[6,6]]`. -/
theorem matmul_concrete_case :
    (opMatmul (R := ℤ) [mkTensor [2, 2] [1, 2, 3, 4] true [],
               mkTensor [2, 2] [5, 6, 7, 8] true []] 0 1).toOption.map
        (fun rs => ((getNode rs.2 rs.1).data,
                    (getNode (backward rs.2 rs.1 true) 0).grad,
                    (getNode (backward rs.2 rs.1 true) 1).grad))
      = some ([19, 22, 43, 50], [11, 15, 11, 15], [4, 4, 6, 6]) := by
  decide

/-! ## Graph engine: correctness of the post-order build -/

theorem default_prev : (default : TensorNode R).prev = [] := rfl

theorem wfState_wfGraph {s : State R} (h : WfState s) : WfGraph s :=
  fun i hi => (h i hi).1

theorem prev_lt_of_wfGraph {s : State R} (hwf : WfGraph s) (v : Nat) :
    ∀ p ∈ (getNode s v).prev, p < v := by
  intro p hp
  by_cases hv : v < s.length
  · exact hwf v hv p hp
  · have hd : getNode s v = default :=
      List.getD_eq_default _ _ (le_of_not_lt hv)
    rw [hd, default_prev] at hp
    simp at hp

theorem mem_of_closed_reach {s : State R} {g : List Nat} (hC : ClosedList s g)
    {v u : Nat} (hr : Reaches s v u) : v ∈ g → u ∈ g := by
  induction hr with
  | refl w => exact id
  | step hp _ ih =>
      intro hu
      obtain ⟨j, hj, hgj⟩ := List.mem_iff_getElem.mp hu
      exact ih (List.take_subset _ _ (hC j hj _ (by rw [hgj]; exact hp)))

theorem closedList_append {s : State R} {g : List Nat} {v : Nat}
    (hC : ClosedList s g) (hv : ∀ p ∈ (getNode s v).prev, p ∈ g) :
    ClosedList s (g ++ [v]) := by
  intro j hj p hp
  have hj2 : j < g.length + 1 := by simpa using hj
  by_cases hjl : j < g.length
  · have hel : (g ++ [v])[j] = g[j] := List.getElem_append_left hjl
    rw [hel] at hp
    rw [List.take_append_of_le_length (le_of_lt hjl)]
    exact hC j hjl p hp
  · have hj' : j = g.length := by omega
    subst hj'
    have hel : (g ++ [v])[g.length] = v := by
      rw [List.getElem_append_right (le_refl g.length)]
      simp
    rw [hel] at hp
    rw [List.take_left]
    exact hv p hp

/-- Main invariant lemma for the depth-first build: one `build_graph(v)`
call satisfies `DfsPost` whenever the accumulator is well formed, the
gray nodes (visited but not yet appended) all lie above `v`, and the fuel
exceeds `v`. -/
theorem bgAux_post {s : State R} (hwf : WfGraph s) :
    ∀ fuel v st, v < fuel → DfsInv s st → (∀ x ∈ st.1, x ∈ st.2 ∨ v < x) →
      DfsPost s v st (bgAux s fuel v st) := by
  intro fuel
  induction fuel with
  | zero => intro v st hv; omega
  | succ fuel ih =>
      have foldSpec : ∀ (l : List Nat) (st : List Nat × List Nat) (b : Nat),
          (∀ p ∈ l, p < fuel) → (∀ p ∈ l, p < b) → DfsInv s st →
          (∀ x ∈ st.1, x ∈ st.2 ∨ b ≤ x) →
          DfsListPost s l st (l.foldl (fun acc p => bgAux s fuel p acc) st) ∧
            (∀ x ∈ (l.foldl (fun acc p => bgAux s fuel p acc) st).1,
              x ∈ (l.foldl (fun acc p => bgAux s fuel p acc) st).2 ∨ b ≤ x) := by
        intro l
        induction l with
        | nil =>
            intro st b _ _ hinv hGray
            exact ⟨⟨⟨[], by simp, by simp, by simp, by simp⟩, by simp, hinv, by simp⟩, hGray⟩
        | cons p rest ihl =>
            intro st b hfl hlb hinv hGray
            simp only [List.foldl_cons]
            have hpost := ih p st (hfl p (by simp)) hinv
              (fun x hx => (hGray x hx).imp id fun h => lt_of_lt_of_le (hlb p (by simp)) h)
            obtain ⟨Δ1, hg1, hΔ1v, hΔ1b, hvis1⟩ := hpost.delta
            have hGray1 : ∀ x ∈ (bgAux s fuel p st).1, x ∈ (bgAux s fuel p st).2 ∨ b ≤ x := by
              intro x hx
              rcases (hvis1 x).mp hx with hx' | hx'
              · rcases hGray x hx' with h | h
                · left; rw [hg1]; exact List.mem_append_left _ h
                · right; exact h
              · left; rw [hg1]; exact List.mem_append_right _ hx'
            obtain ⟨hlist, hGray2⟩ := ihl (bgAux s fuel p st) b
              (fun q hq => hfl q (by simp [hq])) (fun q hq => hlb q (by simp [hq]))
              hpost.inv hGray1
            obtain ⟨Δ2, hg2, hΔ2v, hΔ2b, hvis2⟩ := hlist.delta
            refine ⟨⟨⟨Δ1 ++ Δ2, ?_, ?_, ?_, ?_⟩, ?_, hlist.inv, ?_⟩, hGray2⟩
            · rw [hg2, hg1, List.append_assoc]
            · intro x hx
              rcases List.mem_append.mp hx with hx | hx
              · exact hΔ1v x hx
              · exact fun hmem => hΔ2v x hx ((hvis1 x).mpr (Or.inl hmem))
            · intro x hx
              rcases List.mem_append.mp hx with hx | hx
              · obtain ⟨hle, hre⟩ := hΔ1b x hx
                exact ⟨p, by simp, hle, hre⟩
              · obtain ⟨q, hq, hle, hre⟩ := hΔ2b x hx
                exact ⟨q, by simp [hq], hle, hre⟩
            · intro x
              rw [hvis2 x, hvis1 x, List.mem_append]
              tauto
            · intro q hq
              rcases List.mem_cons.mp hq with rfl | hq
              · rw [hg2]
                exact List.mem_append_left _ hpost.mem_v
              · exact hlist.mem_l q hq
            · intro q hq u hru
              rcases List.mem_cons.mp hq with rfl | hq
              · rw [hg2]
                exact List.mem_append_left _ (hpost.complete u hru)
              · exact hlist.complete q hq u hru
      intro v st hv hinv hGray
      simp only [bgAux]
      by_cases hmem : v ∈ st.1
      · rw [if_pos hmem]
        have hvg : v ∈ st.2 := by
          rcases hGray v hmem with h | h
          · exact h
          · omega
        refine ⟨⟨[], by simp, by simp, by simp, by simp⟩, hvg, hinv, ?_⟩
        exact fun u hru => mem_of_closed_reach hinv.closed hru hvg
      · rw [if_neg hmem]
        have hinv1 : DfsInv s (v :: st.1, st.2) :=
          ⟨hinv.nodup, fun x hx => List.mem_cons_of_mem _ (hinv.sub x hx), hinv.closed⟩
        have hGray1 : ∀ x ∈ (v :: st.1, st.2).1, x ∈ (v :: st.1, st.2).2 ∨ v ≤ x := by
          intro x hx
          rcases List.mem_cons.mp hx with rfl | hx
          · right; exact le_refl x
          · rcases hGray x hx with h | h
            · left; exact h
            · right; omega
        have hplt : ∀ p ∈ (getNode s v).prev, p < v := prev_lt_of_wfGraph hwf v
        have hpfuel : ∀ p ∈ (getNode s v).prev, p < fuel := by
          intro p hp
          have := hplt p hp
          omega
        obtain ⟨hlist, _⟩ :=
          foldSpec (getNode s v).prev (v :: st.1, st.2) v hpfuel hplt hinv1 hGray1
        obtain ⟨Δ', hg', hΔ'v, hΔ'b, hvis'⟩ := hlist.delta
        have hvnot : v ∉
            ((getNode s v).prev.foldl (fun acc p => bgAux s fuel p acc) (v :: st.1, st.2)).2 := by
          rw [hg']
          intro hc
          rcases List.mem_append.mp hc with hc | hc
          · exact hmem (hinv.sub v hc)
          · exact hΔ'v v hc (by simp)
        refine ⟨⟨Δ' ++ [v], ?_, ?_, ?_, ?_⟩, by simp, ⟨?_, ?_, ?_⟩, ?_⟩
        · show _ ++ [v] = st.2 ++ (Δ' ++ [v])
          rw [hg', List.append_assoc]
        · intro x hx
          rcases List.mem_append.mp hx with hx | hx
          · exact fun hc => hΔ'v x hx (List.mem_cons_of_mem _ hc)
          · simp only [List.mem_singleton] at hx
            subst hx
            exact hmem
        · intro x hx
          rcases List.mem_append.mp hx with hx | hx
          · obtain ⟨p, hp, hle, hre⟩ := hΔ'b x hx
            exact ⟨le_of_lt (lt_of_le_of_lt hle (hplt p hp)), Reaches.step hp hre⟩
          · simp only [List.mem_singleton] at hx
            rw [hx]
            exact ⟨le_refl v, Reaches.refl v⟩
        · intro x
          rw [hvis' x]
          simp only [List.mem_cons, List.mem_append, List.mem_singleton]
          tauto
        · exact List.Nodup.append hlist.inv.nodup (List.nodup_singleton v)
            (fun a ha hb => by
              simp only [List.mem_singleton] at hb
              subst hb
              exact hvnot ha)
        · intro x hx
          rcases List.mem_append.mp hx with hx | hx
          · exact hlist.inv.sub x hx
          · simp only [List.mem_singleton] at hx
            subst hx
            exact (hvis' x).mpr (Or.inl (by simp))
        · exact closedList_append hlist.inv.closed hlist.mem_l
        · intro u hru
          cases hru with
          | refl => simp
          | step hp hre => exact List.mem_append_left _ (hlist.complete _ hp _ hre)

/-! ## Claim C4 — each reachable node executes exactly once, in reverse
post-order -/

/-- C4: confirmed.  For a well-formed state (parents precede children —
the invariant every state built through the library satisfies, and the
general form of a DAG built incrementally), the post-order list `graph`
built by `backward` (i) contains no duplicates — so executing it in
reverse runs every stored contribution exactly once even for
diamond-shaped fan-out, (ii) contains exactly the nodes reachable from
the root through parent links, and (iii) lists every parent of an entry
strictly before it — so the reversed execution order runs each node
before any of its parents. -/
theorem backward_runs_each_node_once_in_reverse_postorder
    (s : State R) (root : Nat) (hwf : WfGraph s) :
    (graphOf s root).Nodup ∧
    (∀ v, v ∈ graphOf s root ↔ Reaches s root v) ∧
    (∀ j, (hj : j < (graphOf s root).length) →
      ∀ p ∈ (getNode s (graphOf s root)[j]).prev, p ∈ (graphOf s root).take j) := by
  have hpost := bgAux_post hwf (root + 1) root ([], []) (by omega)
    ⟨List.nodup_nil, by simp, fun j hj => by simp at hj⟩ (by simp)
  obtain ⟨Δ, hg, _, hΔ, _⟩ := hpost.delta
  refine ⟨hpost.inv.nodup, fun v => ⟨fun hv => ?_, fun hr => hpost.complete v hr⟩,
    hpost.inv.closed⟩
  have hv' : v ∈ Δ := by
    simp only [graphOf] at hv
    rw [hg] at hv
    simpa using hv
  exact (hΔ v hv').2

/-- Concrete diamond-shaped graph for the witness: node 3 depends on
nodes 1 and 2, which both depend on leaf 0. -/
def diamondState : State ℤ :=
  [mkTensor [1] [1] true [],
   { mkTensor [1] [2] true [0] with gradFn := .mulScalar 0 2 1 },
   { mkTensor [1] [3] true [0] with gradFn := .mulScalar 0 3 2 },
   { mkTensor [1] [5] true [1, 2] with gradFn := .add 1 2 3 }]

/-- Witness for C4 on the concrete diamond graph. -/
theorem backward_runs_each_node_once_witness :
    WfGraph diamondState ∧
    ((graphOf diamondState 3).Nodup ∧
      (∀ v, v ∈ graphOf diamondState 3 ↔ Reaches diamondState 3 v) ∧
      (∀ j, (hj : j < (graphOf diamondState 3).length) →
        ∀ p ∈ (getNode diamondState (graphOf diamondState 3)[j]).prev,
          p ∈ (graphOf diamondState 3).take j)) :=
  ⟨by decide, backward_runs_each_node_once_in_reverse_postorder diamondState 3 (by decide)⟩

/-! ## State-mutation frame lemmas -/

theorem list_set_getD_self {α : Type} (l : List α) (i : Nat) (d : α) :
    l.set i (l.getD i d) = l := by
  by_cases h : i < l.length
  · apply List.ext_getElem?
    intro j
    by_cases hj : j = i
    · subst hj
      rw [List.getElem?_set_self']
      rw [List.getD_eq_getElem?_getD]
      cases hx : l[j]? with
      | none =>
          simp [List.getElem?_eq_none_iff] at hx
          omega
      | some v => simp [hx]
    · rw [List.getElem?_set_ne (Ne.symm hj)]
  · rw [List.set_eq_of_length_le (le_of_not_lt h)]

theorem default_gradFn : (default : TensorNode R).gradFn = GradFn.noop := rfl

theorem getNode_modifyNode_ne {s : State R} {i j : Nat} (f : TensorNode R → TensorNode R)
    (h : j ≠ i) : getNode (modifyNode s i f) j = getNode s j := by
  unfold getNode modifyNode
  rw [List.getD_eq_getElem?_getD, List.getD_eq_getElem?_getD,
    List.getElem?_set_ne (Ne.symm h)]

theorem getNode_modifyNode_self {s : State R} {i : Nat} {f : TensorNode R → TensorNode R}
    (hf : f default = default) : getNode (modifyNode s i f) i = f (getNode s i) := by
  unfold getNode modifyNode
  by_cases h : i < s.length
  · rw [List.getD_eq_getElem?_getD, List.getElem?_set_self h]
    rfl
  · rw [List.set_eq_of_length_le (le_of_not_lt h)]
    rw [List.getD_eq_default _ _ (le_of_not_lt h)]
    exact hf.symm

theorem getNode_ite_modify {s : State R} {c : Prop} [Decidable c] {i j : Nat}
    {f : TensorNode R → TensorNode R} (h : j ≠ i) :
    getNode (if c then modifyNode s i f else s) j = getNode s j := by
  split
  · exact getNode_modifyNode_ne f h
  · rfl

/-- The closures never write outside their recorded parent indices. -/
theorem getNode_applyGradFn {g : GradFn R} (s : State R) {j : Nat}
    (h : j ∉ g.writes) : getNode (applyGradFn g s) j = getNode s j := by
  cases g with
  | noop => rfl
  | add a b out =>
      simp only [GradFn.writes, List.mem_cons, List.not_mem_nil, or_false] at h
      push_neg at h
      simp only [applyGradFn]
      rw [getNode_ite_modify h.2, getNode_ite_modify h.1]
  | mulScalar a c out =>
      simp only [GradFn.writes, List.mem_cons, List.not_mem_nil, or_false] at h
      simp only [applyGradFn]
      rw [getNode_ite_modify h]
  | mul a b out =>
      simp only [GradFn.writes, List.mem_cons, List.not_mem_nil, or_false] at h
      push_neg at h
      simp only [applyGradFn]
      rw [getNode_ite_modify h.2, getNode_ite_modify h.1]
  | broadcastAddFn a b out N K =>
      simp only [GradFn.writes, List.mem_cons, List.not_mem_nil, or_false] at h
      push_neg at h
      simp only [applyGradFn]
      rw [getNode_ite_modify h.2, getNode_ite_modify h.1]
  | matmulFn A B out m n p =>
      simp only [GradFn.writes, List.mem_cons, List.not_mem_nil, or_false] at h
      push_neg at h
      simp only [applyGradFn]
      rw [getNode_ite_modify h.2, getNode_ite_modify h.1]

/-- A node-updating function that can change only the `grad`/`hess`
buffers. -/
def GradOnly (f : TensorNode R → TensorNode R) : Prop :=
  ∀ n, (f n).data = n.data ∧ (f n).shape = n.shape ∧
    (f n).requiresGrad = n.requiresGrad ∧ (f n).prev = n.prev ∧ (f n).gradFn = n.gradFn

/-- Two states whose nodes agree on everything except possibly the
`grad`/`hess` buffers. -/
def SameStruct (s t : State R) : Prop :=
  ∀ j, (getNode t j).data = (getNode s j).data ∧
    (getNode t j).shape = (getNode s j).shape ∧
    (getNode t j).requiresGrad = (getNode s j).requiresGrad ∧
    (getNode t j).prev = (getNode s j).prev ∧
    (getNode t j).gradFn = (getNode s j).gradFn

theorem sameStruct_refl (s : State R) : SameStruct s s :=
  fun _ => ⟨rfl, rfl, rfl, rfl, rfl⟩

theorem sameStruct_trans {s t u : State R} (h1 : SameStruct s t) (h2 : SameStruct t u) :
    SameStruct s u := by
  intro j
  obtain ⟨a1, b1, c1, d1, e1⟩ := h1 j
  obtain ⟨a2, b2, c2, d2, e2⟩ := h2 j
  exact ⟨a2.trans a1, b2.trans b1, c2.trans c1, d2.trans d1, e2.trans e1⟩

theorem sameStruct_modify {s : State R} {i : Nat} {f : TensorNode R → TensorNode R}
    (hf : GradOnly f) : SameStruct s (modifyNode s i f) := by
  intro j
  by_cases hj : j = i
  · subst hj
    by_cases h : j < s.length
    · have : getNode (modifyNode s j f) j = f (getNode s j) := by
        unfold getNode modifyNode
        rw [List.getD_eq_getElem?_getD, List.getElem?_set_self h]
        rfl
      rw [this]
      exact hf (getNode s j)
    · unfold modifyNode
      rw [List.set_eq_of_length_le (le_of_not_lt h)]
      exact ⟨rfl, rfl, rfl, rfl, rfl⟩
  · rw [getNode_modifyNode_ne f hj]
    exact ⟨rfl, rfl, rfl, rfl, rfl⟩

theorem sameStruct_ite_modify {s : State R} {c : Prop} [Decidable c] {i : Nat}
    {f : TensorNode R → TensorNode R} (hf : GradOnly f) :
    SameStruct s (if c then modifyNode s i f else s) := by
  split
  · exact sameStruct_modify hf
  · exact sameStruct_refl s

theorem applyGradFn_sameStruct (g : GradFn R) (s : State R) :
    SameStruct s (applyGradFn g s) := by
  cases g with
  | noop => exact sameStruct_refl s
  | add a b out =>
      simp only [applyGradFn]
      refine sameStruct_trans (sameStruct_ite_modify ?_) (sameStruct_ite_modify ?_) <;>
        exact fun n => ⟨rfl, rfl, rfl, rfl, rfl⟩
  | mulScalar a c out =>
      simp only [applyGradFn]
      refine sameStruct_ite_modify ?_
      exact fun n => ⟨rfl, rfl, rfl, rfl, rfl⟩
  | mul a b out =>
      simp only [applyGradFn]
      refine sameStruct_trans (sameStruct_ite_modify ?_) (sameStruct_ite_modify ?_) <;>
        exact fun n => ⟨rfl, rfl, rfl, rfl, rfl⟩
  | broadcastAddFn a b out N K =>
      simp only [applyGradFn]
      refine sameStruct_trans (sameStruct_ite_modify ?_) (sameStruct_ite_modify ?_) <;>
        exact fun n => ⟨rfl, rfl, rfl, rfl, rfl⟩
  | matmulFn A B out m n p =>
      simp only [applyGradFn]
      refine sameStruct_trans (sameStruct_ite_modify ?_) (sameStruct_ite_modify ?_) <;>
        exact fun n => ⟨rfl, rfl, rfl, rfl, rfl⟩

/-- Running the stored closures of nodes whose write sets avoid `r`
leaves node `r` untouched, and never changes any node's structure. -/
theorem exec_foldl_props (s : State R) (r : Nat) (l : List Nat)
    (hw : ∀ v ∈ l, r ∉ (getNode s v).gradFn.writes) :
    ∀ t, SameStruct s t →
      SameStruct s (l.foldl (fun st v => applyGradFn (getNode st v).gradFn st) t) ∧
      getNode (l.foldl (fun st v => applyGradFn (getNode st v).gradFn st) t) r
        = getNode t r := by
  induction l with
  | nil => exact fun t ht => ⟨ht, rfl⟩
  | cons v rest ihl =>
      intro t ht
      simp only [List.foldl_cons]
      have hgf : (getNode t v).gradFn = (getNode s v).gradFn := (ht v).2.2.2.2
      have hstep : SameStruct s (applyGradFn (getNode t v).gradFn t) :=
        sameStruct_trans ht (applyGradFn_sameStruct _ t)
      obtain ⟨h1, h2⟩ := ihl (fun q hq => hw q (by simp [hq]))
        (applyGradFn (getNode t v).gradFn t) hstep
      refine ⟨h1, ?_⟩
      rw [h2, hgf]
      exact getNode_applyGradFn t (hw v (by simp))

/-- After the cleanup loop, every listed node has an empty parent list
and the no-op closure. -/
theorem clean_foldl_clean_at (l : List Nat) (t : State R) :
    ∀ v ∈ l,
      (getNode (l.foldl
        (fun st v => modifyNode st v fun nd => { nd with prev := [], gradFn := GradFn.noop })
        t) v).prev = [] ∧
      (getNode (l.foldl
        (fun st v => modifyNode st v fun nd => { nd with prev := [], gradFn := GradFn.noop })
        t) v).gradFn = GradFn.noop := by
  induction l generalizing t with
  | nil => intro v hv; simp at hv
  | cons u rest ihl =>
      intro v hv
      simp only [List.foldl_cons]
      rcases List.mem_cons.mp hv with rfl | hv
      · -- the property is established at `v` and preserved by later cleanups
        have hrest : ∀ (t' : State R), (getNode t' v).prev = [] →
            (getNode t' v).gradFn = GradFn.noop →
            (getNode (rest.foldl
              (fun st v => modifyNode st v fun nd => { nd with prev := [], gradFn := GradFn.noop })
              t') v).prev = [] ∧
            (getNode (rest.foldl
              (fun st v => modifyNode st v fun nd => { nd with prev := [], gradFn := GradFn.noop })
              t') v).gradFn = GradFn.noop := by
          clear ihl hv
          induction rest with
          | nil => exact fun t' h1 h2 => ⟨h1, h2⟩
          | cons w ws ihw =>
              intro t' h1 h2
              simp only [List.foldl_cons]
              by_cases hwv : v = w
              · subst hwv
                apply ihw
                · rw [getNode_modifyNode_self rfl]
                · rw [getNode_modifyNode_self rfl]
              · apply ihw
                · rw [getNode_modifyNode_ne _ hwv]; exact h1
                · rw [getNode_modifyNode_ne _ hwv]; exact h2
        apply hrest
        · rw [getNode_modifyNode_self rfl]
        · rw [getNode_modifyNode_self rfl]
      · exact ihl _ v hv

/-- The cleanup loop can change only `prev` and `gradFn`. -/
theorem clean_foldl_vals (l : List Nat) (t : State R) (j : Nat) :
    (getNode (l.foldl
        (fun st v => modifyNode st v fun nd => { nd with prev := [], gradFn := GradFn.noop })
        t) j).data = (getNode t j).data ∧
    (getNode (l.foldl
        (fun st v => modifyNode st v fun nd => { nd with prev := [], gradFn := GradFn.noop })
        t) j).grad = (getNode t j).grad ∧
    (getNode (l.foldl
        (fun st v => modifyNode st v fun nd => { nd with prev := [], gradFn := GradFn.noop })
        t) j).hess = (getNode t j).hess ∧
    (getNode (l.foldl
        (fun st v => modifyNode st v fun nd => { nd with prev := [], gradFn := GradFn.noop })
        t) j).requiresGrad = (getNode t j).requiresGrad := by
  induction l generalizing t with
  | nil => exact ⟨rfl, rfl, rfl, rfl⟩
  | cons u rest ihl =>
      simp only [List.foldl_cons]
      obtain ⟨h1, h2, h3, h4⟩ := ihl (modifyNode t u fun nd => { nd with prev := [], gradFn := GradFn.noop })
      refine ⟨h1.trans ?_, h2.trans ?_, h3.trans ?_, h4.trans ?_⟩ <;>
        by_cases hj : j = u
      · subst hj; rw [getNode_modifyNode_self rfl]
      · rw [getNode_modifyNode_ne _ hj]
      · subst hj; rw [getNode_modifyNode_self rfl]
      · rw [getNode_modifyNode_ne _ hj]
      · subst hj; rw [getNode_modifyNode_self rfl]
      · rw [getNode_modifyNode_ne _ hj]
      · subst hj; rw [getNode_modifyNode_self rfl]
      · rw [getNode_modifyNode_ne _ hj]

/-- If the root's parents were cleared, the rebuilt post-order list is
just the root. -/
theorem graphOf_of_prev_nil {s : State R} {root : Nat}
    (h : (getNode s root).prev = []) : graphOf s root = [root] := by
  simp [graphOf, bgAux, h]

/-- `backward` is the identity on a state whose root node has been
severed (no parents, no-op closure) and already carries the seed values
in its buffers. -/
theorem backward_fixed_of_severed_root (t : State R) (root : Nat)
    (hprev : (getNode t root).prev = [])
    (hgf : (getNode t root).gradFn = GradFn.noop)
    (hgrad : (getNode t root).requiresGrad = true →
      (getNode t root).grad.map (fun _ => (1 : R)) = (getNode t root).grad ∧
      (getNode t root).hess.map (fun _ => (0 : R)) = (getNode t root).hess) :
    backward t root true = t := by
  have hg1 : graphOf t root = [root] := graphOf_of_prev_nil hprev
  have hseed : (if (getNode t root).requiresGrad = true then
      modifyNode t root (fun r =>
        { r with grad := r.grad.map fun _ => 1, hess := r.hess.map fun _ => 0 })
      else t) = t := by
    by_cases hrg : (getNode t root).requiresGrad = true
    · rw [if_pos hrg]
      obtain ⟨h1, h2⟩ := hgrad hrg
      have hfix : (fun (r : TensorNode R) =>
          { r with grad := r.grad.map fun _ => (1 : R),
                   hess := r.hess.map fun _ => (0 : R) }) (getNode t root)
          = getNode t root := by
        cases hq : getNode t root with
        | mk d g hs sh rg pv gf =>
            rw [hq] at h1 h2
            simp [TensorNode.mk.injEq, h1, h2]
      unfold modifyNode
      rw [hfix]
      exact list_set_getD_self t root default
    · rw [if_neg hrg]
  have hcfix : (fun (nd : TensorNode R) => { nd with prev := [], gradFn := GradFn.noop })
      (getNode t root) = getNode t root := by
    cases hq : getNode t root with
    | mk d g hs sh rg pv gf =>
        rw [hq] at hprev hgf
        simp at hprev hgf
        simp [TensorNode.mk.injEq, hprev, hgf]
  simp only [backward, hg1, List.reverse_cons, List.reverse_nil, List.nil_append,
    List.foldl_cons, List.foldl_nil, hseed, hgf, applyGradFn, if_true]
  unfold modifyNode
  rw [hcfix]
  exact list_set_getD_self t root default

/-! ## Claim C6 — graph severing and second-backward no-op -/

/-- C6: confirmed.  For a well-formed state (the shape of every state the
library can build), after `backward` with graph preservation disabled
(`clean_graph = true`) every visited node — in particular every non-leaf
node — has an empty parent list and its closure reset to a no-op; and
invoking `backward` again on the same output node returns the state
completely unchanged (in particular, no node's gradient or Hessian
buffer changes), rather than silently recomputing. -/
theorem backward_clean_severs_and_second_backward_noop
    (s : State R) (root : Nat) (hwf : WfState s) :
    (∀ v ∈ graphOf s root,
        (getNode (backward s root true) v).prev = [] ∧
        (getNode (backward s root true) v).gradFn = GradFn.noop) ∧
    backward (backward s root true) root true = backward s root true := by
  have hwfg : WfGraph s := wfState_wfGraph hwf
  have hpost := bgAux_post hwfg (root + 1) root ([], []) (by omega)
    ⟨List.nodup_nil, by simp, fun j hj => by simp at hj⟩ (by simp)
  obtain ⟨Δ, hg, _, hΔ, _⟩ := hpost.delta
  have hgbound : ∀ v ∈ graphOf s root, v ≤ root := by
    intro v hv
    simp only [graphOf] at hv
    rw [hg] at hv
    simp at hv
    exact (hΔ v hv).1
  have hrootg : root ∈ graphOf s root := hpost.mem_v
  have hwrites : ∀ v ∈ graphOf s root, root ∉ (getNode s v).gradFn.writes := by
    intro v hv hmem
    by_cases hvl : v < s.length
    · have hlt := (hwf v hvl).2 root hmem
      have hle := hgbound v hv
      omega
    · have hd : getNode s v = default := List.getD_eq_default _ _ (le_of_not_lt hvl)
      rw [hd, default_gradFn] at hmem
      simp [GradFn.writes] at hmem
  have hback : backward s root true =
      (graphOf s root).foldl
        (fun st v => modifyNode st v fun nd => { nd with prev := [], gradFn := GradFn.noop })
        ((graphOf s root).reverse.foldl (fun st v => applyGradFn (getNode st v).gradFn st)
          (if (getNode s root).requiresGrad = true then
            modifyNode s root (fun r =>
              { r with grad := r.grad.map fun _ => 1, hess := r.hess.map fun _ => 0 })
          else s)) := rfl
  rw [hback]
  set sSeed := (if (getNode s root).requiresGrad = true then
      modifyNode s root (fun r =>
        { r with grad := r.grad.map fun _ => (1 : R), hess := r.hess.map fun _ => (0 : R) })
      else s) with hSeedDef
  set sExec := (graphOf s root).reverse.foldl
      (fun st v => applyGradFn (getNode st v).gradFn st) sSeed with hExecDef
  set sClean := (graphOf s root).foldl
      (fun st v => modifyNode st v fun nd => { nd with prev := [], gradFn := GradFn.noop })
      sExec with hCleanDef
  have hstructSeed : SameStruct s sSeed := by
    rw [hSeedDef]
    refine sameStruct_ite_modify ?_
    exact fun n => ⟨rfl, rfl, rfl, rfl, rfl⟩
  have hexecp := exec_foldl_props s root ((graphOf s root).reverse)
    (fun v hv => hwrites v (List.mem_reverse.mp hv)) sSeed hstructSeed
  have hsever := clean_foldl_clean_at (graphOf s root) sExec
  refine ⟨hsever, ?_⟩
  apply backward_fixed_of_severed_root
  · exact (hsever root hrootg).1
  · exact (hsever root hrootg).2
  · intro hrg3
    obtain ⟨hdta, hgrd, hhss, hrg⟩ := clean_foldl_vals (graphOf s root) sExec root
    have hroot21 : getNode sExec root = getNode sSeed root := hexecp.2
    have hrgs : (getNode s root).requiresGrad = true := by
      rw [hrg, hroot21] at hrg3
      rw [(hstructSeed root).2.2.1] at hrg3
      exact hrg3
    have hfdef : (fun (r : TensorNode R) =>
        { r with grad := r.grad.map fun _ => (1 : R),
                 hess := r.hess.map fun _ => (0 : R) }) default = default := rfl
    have hseedgrad : (getNode sSeed root).grad = (getNode s root).grad.map fun _ => (1 : R) := by
      rw [hSeedDef, if_pos hrgs, getNode_modifyNode_self hfdef]
    have hseedhess : (getNode sSeed root).hess = (getNode s root).hess.map fun _ => (0 : R) := by
      rw [hSeedDef, if_pos hrgs, getNode_modifyNode_self hfdef]
    have hcg : (getNode sClean root).grad = (getNode s root).grad.map fun _ => (1 : R) := by
      rw [hgrd, hroot21, hseedgrad]
    have hch : (getNode sClean root).hess = (getNode s root).hess.map fun _ => (0 : R) := by
      rw [hhss, hroot21, hseedhess]
    constructor
    · rw [hcg, List.map_map]
      rfl
    · rw [hch, List.map_map]
      rfl

/-- Witness for C6 on the concrete diamond graph. -/
theorem backward_clean_severs_witness :
    WfState diamondState ∧
    ((∀ v ∈ graphOf diamondState 3,
        (getNode (backward diamondState 3 true) v).prev = [] ∧
        (getNode (backward diamondState 3 true) v).gradFn = GradFn.noop) ∧
      backward (backward diamondState 3 true) 3 true = backward diamondState 3 true) :=
  ⟨by decide, backward_clean_severs_and_second_backward_noop diamondState 3 (by decide)⟩

/-! ## Claim C5 — fan-out accumulation -/

/-- Unfolding of `backward` with `clean_graph = true` (definitional). -/
theorem backward_unfold (s : State R) (root : Nat) :
    backward s root true = (graphOf s root).foldl
      (fun st v => modifyNode st v fun nd => { nd with prev := [], gradFn := GradFn.noop })
      ((graphOf s root).reverse.foldl (fun st v => applyGradFn (getNode st v).gradFn st)
        (if (getNode s root).requiresGrad = true then
          modifyNode s root (fun r =>
            { r with grad := r.grad.map fun _ => 1, hess := r.hess.map fun _ => 0 })
        else s)) := rfl

/-- The fan-out pipeline after the two scalar multiplications
(`c1 = x * α`, `c2 = x * β`). -/
def fs3 (x0 α β : R) : State R :=
  [{ data := [x0], grad := [0], hess := [0], shape := [1],
     requiresGrad := true, prev := [], gradFn := .noop },
   { data := [x0 * α], grad := [0], hess := [0], shape := [1],
     requiresGrad := true, prev := [0], gradFn := .mulScalar 0 α 1 },
   { data := [x0 * β], grad := [0], hess := [0], shape := [1],
     requiresGrad := true, prev := [0], gradFn := .mulScalar 0 β 2 }]

/-- The fan-out pipeline after `y = c1 + c2`. -/
def fsA (x0 α β : R) : State R :=
  fs3 x0 α β ++
  [{ data := [x0 * α + x0 * β], grad := [0], hess := [0], shape := [1],
     requiresGrad := true, prev := [1, 2], gradFn := .add 1 2 3 }]

/-- The pipeline after seeding `y`. -/
def fsB (x0 α β : R) : State R :=
  [{ data := [x0], grad := [0], hess := [0], shape := [1],
     requiresGrad := true, prev := [], gradFn := .noop },
   { data := [x0 * α], grad := [0], hess := [0], shape := [1],
     requiresGrad := true, prev := [0], gradFn := .mulScalar 0 α 1 },
   { data := [x0 * β], grad := [0], hess := [0], shape := [1],
     requiresGrad := true, prev := [0], gradFn := .mulScalar 0 β 2 },
   { data := [x0 * α + x0 * β], grad := [1], hess := [0], shape := [1],
     requiresGrad := true, prev := [1, 2], gradFn := .add 1 2 3 }]

/-- The pipeline after executing `y`'s closure. -/
def fsC (x0 α β : R) : State R :=
  [{ data := [x0], grad := [0], hess := [0], shape := [1],
     requiresGrad := true, prev := [], gradFn := .noop },
   { data := [x0 * α], grad := [0 + 1], hess := [0 + 0], shape := [1],
     requiresGrad := true, prev := [0], gradFn := .mulScalar 0 α 1 },
   { data := [x0 * β], grad := [0 + 1], hess := [0 + 0], shape := [1],
     requiresGrad := true, prev := [0], gradFn := .mulScalar 0 β 2 },
   { data := [x0 * α + x0 * β], grad := [1], hess := [0], shape := [1],
     requiresGrad := true, prev := [1, 2], gradFn := .add 1 2 3 }]

/-- The pipeline after executing `c2`'s closure. -/
def fsD (x0 α β : R) : State R :=
  [{ data := [x0], grad := [0 + (0 + 1) * β], hess := [0 + (0 + 0) * β * β], shape := [1],
     requiresGrad := true, prev := [], gradFn := .noop },
   { data := [x0 * α], grad := [0 + 1], hess := [0 + 0], shape := [1],
     requiresGrad := true, prev := [0], gradFn := .mulScalar 0 α 1 },
   { data := [x0 * β], grad := [0 + 1], hess := [0 + 0], shape := [1],
     requiresGrad := true, prev := [0], gradFn := .mulScalar 0 β 2 },
   { data := [x0 * α + x0 * β], grad := [1], hess := [0], shape := [1],
     requiresGrad := true, prev := [1, 2], gradFn := .add 1 2 3 }]

/-- The pipeline after executing `c1`'s closure. -/
def fsE (x0 α β : R) : State R :=
  [{ data := [x0], grad := [0 + (0 + 1) * β + (0 + 1) * α],
     hess := [0 + (0 + 0) * β * β + (0 + 0) * α * α], shape := [1],
     requiresGrad := true, prev := [], gradFn := .noop },
   { data := [x0 * α], grad := [0 + 1], hess := [0 + 0], shape := [1],
     requiresGrad := true, prev := [0], gradFn := .mulScalar 0 α 1 },
   { data := [x0 * β], grad := [0 + 1], hess := [0 + 0], shape := [1],
     requiresGrad := true, prev := [0], gradFn := .mulScalar 0 β 2 },
   { data := [x0 * α + x0 * β], grad := [1], hess := [0], shape := [1],
     requiresGrad := true, prev := [1, 2], gradFn := .add 1 2 3 }]

/-- C5: confirmed.  A leaf `x = [x0]` consumed along two independent
paths (`c1 = x * α` and `c2 = x * β`, scalar multiplications by arbitrary
ring constants) that feed one shared scalar output `y = c1 + c2`
accumulates, after `backward` on `y`, the sum `α + β` of the two paths'
chain-rule contributions — not either contribution alone. -/
theorem fanout_gradient_is_sum_of_paths (x0 α β : R) :
    ∀ r (s3 : State R),
      opAdd (opMulScalar (opMulScalar [mkTensor [1] [x0] true []] 0 α).2 0 β).2 1 2
        = .ok (r, s3) →
      (getNode (backward s3 r true) 0).grad = [α + β] := by
  intro r s3 h
  have h1 : (opMulScalar (opMulScalar [mkTensor [1] [x0] true []] 0 α).2 0 β).2
      = fs3 x0 α β := rfl
  rw [h1] at h
  have h2 : opAdd (fs3 x0 α β) 1 2
      = (Except.ok (3, fsA x0 α β) : Except String (Nat × State R)) := rfl
  rw [h2] at h
  simp only [Except.ok.injEq, Prod.mk.injEq] at h
  obtain ⟨rfl, rfl⟩ := h
  have hgraph : graphOf (fsA x0 α β) 3 = [0, 1, 2, 3] := rfl
  rw [backward_unfold, hgraph]
  rw [(clean_foldl_vals [0, 1, 2, 3] _ 0).2.1]
  rw [show (if (getNode (fsA x0 α β) 3).requiresGrad = true then
        modifyNode (fsA x0 α β) 3 (fun r =>
          { r with grad := r.grad.map fun _ => 1, hess := r.hess.map fun _ => 0 })
      else fsA x0 α β) = fsB x0 α β from rfl]
  simp only [List.reverse_cons, List.reverse_nil, List.nil_append, List.cons_append,
    List.singleton_append, List.append_nil, List.foldl_cons, List.foldl_nil]
  rw [show applyGradFn (getNode (fsB x0 α β) 3).gradFn (fsB x0 α β) = fsC x0 α β from rfl]
  rw [show applyGradFn (getNode (fsC x0 α β) 2).gradFn (fsC x0 α β) = fsD x0 α β from rfl]
  rw [show applyGradFn (getNode (fsD x0 α β) 1).gradFn (fsD x0 α β) = fsE x0 α β from rfl]
  rw [show applyGradFn (getNode (fsE x0 α β) 0).gradFn (fsE x0 α β) = fsE x0 α β from rfl]
  rw [show (getNode (fsE x0 α β) 0).grad = [0 + (0 + 1) * β + (0 + 1) * α] from rfl]
  congr 1
  ring

/-- Concrete instance of the fan-out pipeline over `ℤ` (`x0 = 5`,
`α = 2`, `β = 3`). -/
def fanoutStateZ : State ℤ := fsA 5 2 3

/-- Witness for C5 at `x0 = 5`, `α = 2`, `β = 3`. -/
theorem fanout_gradient_is_sum_of_paths_witness :
    (getNode (backward fanoutStateZ 3 true) 0).grad = [(2 : ℤ) + 3] :=
  fanout_gradient_is_sum_of_paths 5 2 3 3 fanoutStateZ rfl

/-! ## Claim C10 — permute_rows mutates only the data buffer -/

/-- C10: confirmed.  On a 2-D node and a valid permutation,
`permute_rows` rewrites only the `data` buffer: `grad`, `hess`, `shape`,
`requires_grad`, the parent list and the stored closure are unchanged —
in particular the gradient and Hessian buffers are *not* permuted along
with the data rows. -/
theorem permuteRows_mutates_only_data (t : TensorNode R) (perm : List Nat)
    (t' : TensorNode R) (h2 : t.shape.length = 2)
    (_hperm : ValidPerm (t.shape.getD 0 0) perm)
    (h : permuteRows t perm = .ok t') :
    t'.grad = t.grad ∧ t'.hess = t.hess ∧ t'.shape = t.shape ∧
    t'.requiresGrad = t.requiresGrad ∧ t'.prev = t.prev ∧ t'.gradFn = t.gradFn := by
  unfold permuteRows at h
  rw [if_neg (by simp [h2])] at h
  simp only [Except.ok.injEq] at h
  subst h
  exact ⟨rfl, rfl, rfl, rfl, rfl, rfl⟩

/-- Witness for C10: a 2×2 integer node with gradient buffers, permuted
by `[1, 0]`. -/
theorem permuteRows_mutates_only_data_witness :
    ((mkTensor (R := ℤ) [2, 2] [1, 2, 3, 4] true []).shape.length = 2 ∧
      ValidPerm ((mkTensor (R := ℤ) [2, 2] [1, 2, 3, 4] true []).shape.getD 0 0) [1, 0] ∧
      permuteRows (mkTensor (R := ℤ) [2, 2] [1, 2, 3, 4] true []) [1, 0]
        = .ok { mkTensor (R := ℤ) [2, 2] [1, 2, 3, 4] true [] with data := [3, 4, 1, 2] }) ∧
    ({ mkTensor (R := ℤ) [2, 2] [1, 2, 3, 4] true [] with data := [3, 4, 1, 2] }.grad
        = (mkTensor (R := ℤ) [2, 2] [1, 2, 3, 4] true []).grad ∧
      { mkTensor (R := ℤ) [2, 2] [1, 2, 3, 4] true [] with data := [3, 4, 1, 2] }.hess
        = (mkTensor (R := ℤ) [2, 2] [1, 2, 3, 4] true []).hess ∧
      { mkTensor (R := ℤ) [2, 2] [1, 2, 3, 4] true [] with data := [3, 4, 1, 2] }.shape
        = (mkTensor (R := ℤ) [2, 2] [1, 2, 3, 4] true []).shape ∧
      { mkTensor (R := ℤ) [2, 2] [1, 2, 3, 4] true [] with data := [3, 4, 1, 2] }.requiresGrad
        = (mkTensor (R := ℤ) [2, 2] [1, 2, 3, 4] true []).requiresGrad ∧
      { mkTensor (R := ℤ) [2, 2] [1, 2, 3, 4] true [] with data := [3, 4, 1, 2] }.prev
        = (mkTensor (R := ℤ) [2, 2] [1, 2, 3, 4] true []).prev ∧
      { mkTensor (R := ℤ) [2, 2] [1, 2, 3, 4] true [] with data := [3, 4, 1, 2] }.gradFn
        = (mkTensor (R := ℤ) [2, 2] [1, 2, 3, 4] true []).gradFn) :=
  ⟨⟨by decide, by decide, by rfl⟩,
    permuteRows_mutates_only_data (mkTensor (R := ℤ) [2, 2] [1, 2, 3, 4] true []) [1, 0]
      { mkTensor (R := ℤ) [2, 2] [1, 2, 3, 4] true [] with data := [3, 4, 1, 2] }
      (by decide) (by decide) (by rfl)⟩

/-! ## Row-slice lemmas for permute_rows -/

theorem getRow_getElem? {M r : Nat} {d : List R} (j : Nat) (hj : j < M) :
    (getRow M r d)[j]? = d[r * M + j]? := by
  unfold getRow
  rw [List.getElem?_take_of_lt hj, List.getElem?_drop]

theorem getRow_length {M r : Nat} {d : List R} (h : r * M + M ≤ d.length) :
    (getRow M r d).length = M := by
  unfold getRow
  rw [List.length_take, List.length_drop]
  omega

theorem setRow_length {M r : Nat} {row d : List R} (hrow : row.length = M)
    (h : r * M + M ≤ d.length) : (setRow M r row d).length = d.length := by
  unfold setRow
  simp only [List.length_append, List.length_take, List.length_drop]
  omega

theorem setRow_getElem? {M r : Nat} {row d : List R} (hrow : row.length = M)
    (h : r * M + M ≤ d.length) (k : Nat) :
    (setRow M r row d)[k]? =
      if r * M ≤ k ∧ k < r * M + M then row[k - r * M]? else d[k]? := by
  unfold setRow
  have hA : (d.take (r * M)).length = r * M := by
    rw [List.length_take]; omega
  by_cases h1 : k < r * M
  · rw [if_neg (by omega)]
    rw [List.getElem?_append_left (by rw [List.length_append, hA, hrow]; omega),
      List.getElem?_append_left (by omega), List.getElem?_take_of_lt h1]
  · by_cases h2 : k < r * M + M
    · rw [if_pos (by omega)]
      rw [List.getElem?_append_left (by rw [List.length_append, hA, hrow]; omega),
        List.getElem?_append_right (by omega), hA]
    · rw [if_neg (by omega)]
      rw [List.getElem?_append_right (by rw [List.length_append, hA, hrow]; omega)]
      rw [List.getElem?_drop]
      congr 1
      rw [List.length_append, hA, hrow]
      omega

theorem getRow_setRow_self {M r : Nat} {row d : List R} (hrow : row.length = M)
    (h : r * M + M ≤ d.length) : getRow M r (setRow M r row d) = row := by
  apply List.ext_getElem?
  intro j
  by_cases hj : j < M
  · rw [getRow_getElem? j hj, setRow_getElem? hrow h, if_pos (by omega)]
    congr 1
    omega
  · rw [List.getElem?_eq_none, List.getElem?_eq_none]
    · omega
    · rw [getRow_length (by rw [setRow_length hrow h]; omega)]
      omega

theorem getRow_setRow_ne {M r r' : Nat} {row d : List R} (hrow : row.length = M)
    (hr : r * M + M ≤ d.length) (hne : r' ≠ r) :
    getRow M r' (setRow M r row d) = getRow M r' d := by
  apply List.ext_getElem?
  intro j
  by_cases hj : j < M
  · rw [getRow_getElem? j hj, getRow_getElem? j hj, setRow_getElem? hrow hr]
    rw [if_neg ?_]
    rcases Nat.lt_or_ge r' r with hlt | hge
    · have hm : (r' + 1) * M ≤ r * M := Nat.mul_le_mul_right M (by omega)
      have he : (r' + 1) * M = r' * M + M := by ring
      omega
    · have hgt : r < r' := by omega
      have hm : (r + 1) * M ≤ r' * M := Nat.mul_le_mul_right M (by omega)
      have he : (r + 1) * M = r * M + M := by ring
      omega
  · unfold getRow
    rw [List.getElem?_eq_none, List.getElem?_eq_none]
    · rw [List.length_take]; omega
    · rw [List.length_take]; omega

theorem getRow_getD {M r : Nat} {d : List R} (j : Nat) (hj : j < M) :
    (getRow M r d).getD j 0 = d.getD (r * M + j) 0 := by
  rw [List.getD_eq_getElem?_getD, List.getD_eq_getElem?_getD, getRow_getElem? j hj]

/-! ## Permutation-vector facts -/

/-- The function `current ↦ perm[current]` followed by the inner loop. -/
def permF (perm : List Nat) : Nat → Nat := fun k => perm.getD k 0

theorem permF_lt {n : Nat} {perm : List Nat} (h1 : perm.length = n)
    (h2 : ∀ j ∈ perm, j < n) {r : Nat} (hr : r < n) : permF perm r < n := by
  unfold permF
  rw [List.getD_eq_getElem _ _ (by omega)]
  exact h2 _ (List.getElem_mem _)

theorem permF_inj {n : Nat} {perm : List Nat} (h1 : perm.length = n)
    (hnd : perm.Nodup) {a b : Nat} (ha : a < n) (hb : b < n)
    (he : permF perm a = permF perm b) : a = b := by
  unfold permF at he
  have ha' : a < perm.length := by omega
  have hb' : b < perm.length := by omega
  rw [List.getD_eq_getElem _ _ ha', List.getD_eq_getElem _ _ hb'] at he
  exact (List.Nodup.getElem_inj_iff hnd).mp he

theorem permF_iterate_lt {n : Nat} {perm : List Nat} (h1 : perm.length = n)
    (h2 : ∀ j ∈ perm, j < n) {i : Nat} (hi : i < n) :
    ∀ m, (permF perm)^[m] i < n := by
  intro m
  induction m with
  | zero => exact hi
  | succ m ih =>
      rw [Function.iterate_succ_apply']
      exact permF_lt h1 h2 ih

theorem iterate_mul_period {f : Nat → Nat} {i k : Nat} (hp : f^[k] i = i) :
    ∀ q, f^[k * q] i = i := by
  intro q
  induction q with
  | zero => rfl
  | succ q ih =>
      have : k * (q + 1) = k + k * q := by ring
      rw [this, Function.iterate_add_apply, ih, hp]

theorem iterate_mod_of_period {f : Nat → Nat} {i k : Nat} (hp : f^[k] i = i) (m : Nat) :
    f^[m] i = f^[m % k] i := by
  conv_lhs => rw [← Nat.mod_add_div m k]
  rw [Function.iterate_add_apply, iterate_mul_period hp]

theorem list_getD_set_self {α : Type} (l : List α) {i : Nat} (h : i < l.length)
    (a d : α) : (l.set i a).getD i d = a := by
  rw [List.getD_eq_getElem?_getD, List.getElem?_set_self h]
  rfl

theorem list_getD_set_ne {α : Type} (l : List α) {i j : Nat} (h : j ≠ i) (a d : α) :
    (l.set i a).getD j d = l.getD j d := by
  rw [List.getD_eq_getElem?_getD, List.getD_eq_getElem?_getD,
    List.getElem?_set_ne (Ne.symm h)]

/-! ## Correctness of the in-place cycle walk of permute_rows -/

/-- Invariant-carrying specification of the inner
`while (!visited[current])` loop.  `B` is the set of rows visited by
earlier (complete) cycles; the current cycle has walked `j` steps from
its start `i₀`, standing at `(permF perm)^[j] i₀`.  The loop terminates
having visited exactly `B` plus the orbit of `i₀`, with each visited row
`r` holding the original row `perm[r]` and unvisited rows untouched. -/
theorem permuteCycle_spec {N M : Nat} {perm : List Nat}
    (hlen : perm.length = N) (hmem : ∀ x ∈ perm, x < N) (hnd : perm.Nodup)
    (orig : List R) (i₀ : Nat) (hi₀ : i₀ < N)
    (B : Nat → Prop)
    (hBf : ∀ x, x < N → (B x ↔ B (permF perm x)))
    (hBi : ¬ B i₀)
    (temp : List R) (htemp : temp = getRow M i₀ orig)
    (horiglen : orig.length = N * M) :
    ∀ fuel j visited d,
      (∀ a b, a < b → b < j → (permF perm)^[a] i₀ ≠ (permF perm)^[b] i₀) →
      (∀ r, r < N → (visited.getD r false = true ↔
        (B r ∨ ∃ m, m < j ∧ (permF perm)^[m] i₀ = r))) →
      visited.length = N →
      d.length = N * M →
      (∀ r, r < N →
        (visited.getD r false = true → getRow M r d = getRow M (permF perm r) orig) ∧
        (visited.getD r false = false → getRow M r d = getRow M r orig)) →
      N + 1 ≤ fuel + ((Finset.range N).filter
        (fun r => visited.getD r false = true)).card →
      ∃ k, 0 < k ∧ (permF perm)^[k] i₀ = i₀ ∧
        (permuteCycle perm M i₀ temp fuel ((permF perm)^[j] i₀) visited d).1.length = N ∧
        (permuteCycle perm M i₀ temp fuel ((permF perm)^[j] i₀) visited d).2.length = N * M ∧
        (∀ r, r < N →
          ((permuteCycle perm M i₀ temp fuel ((permF perm)^[j] i₀) visited d).1.getD r false
              = true ↔ (B r ∨ ∃ m, (permF perm)^[m] i₀ = r))) ∧
        (∀ r, r < N →
          ((permuteCycle perm M i₀ temp fuel ((permF perm)^[j] i₀) visited d).1.getD r false
              = true →
            getRow M r (permuteCycle perm M i₀ temp fuel ((permF perm)^[j] i₀) visited d).2
              = getRow M (permF perm r) orig) ∧
          ((permuteCycle perm M i₀ temp fuel ((permF perm)^[j] i₀) visited d).1.getD r false
              = false →
            getRow M r (permuteCycle perm M i₀ temp fuel ((permF perm)^[j] i₀) visited d).2
              = getRow M r orig)) := by
  have hBorbit : ∀ m, ¬ B ((permF perm)^[m] i₀) := by
    intro m
    induction m with
    | zero => exact hBi
    | succ m ihm =>
        rw [Function.iterate_succ_apply']
        intro hc
        exact ihm ((hBf _ (permF_iterate_lt hlen hmem hi₀ m)).mpr hc)
  intro fuel
  induction fuel with
  | zero =>
      intro j visited d _ _ _ _ _ hfuel
      have := Finset.card_filter_le (Finset.range N)
        (fun r => visited.getD r false = true)
      rw [Finset.card_range] at this
      omega
  | succ fuel ih =>
      intro j visited d hdist hvis hvlen hdlen hrows hfuel
      have hcur : (permF perm)^[j] i₀ < N := permF_iterate_lt hlen hmem hi₀ j
      have hgetDcur : visited.getD ((permF perm)^[j] i₀) true
          = visited.getD ((permF perm)^[j] i₀) false := by
        rw [List.getD_eq_getElem _ _ (by omega), List.getD_eq_getElem _ _ (by omega)]
      cases hvb : visited.getD ((permF perm)^[j] i₀) false with
      | true =>
          -- the walk has closed its cycle: the revisited row must be i₀
          have hstep : permuteCycle perm M i₀ temp (fuel + 1) ((permF perm)^[j] i₀)
              visited d = (visited, d) := by
            rw [permuteCycle, hgetDcur, hvb]
            simp
          rcases (hvis _ hcur).mp hvb with hB | ⟨m, hmj, hmeq⟩
          · exact absurd hB (hBorbit j)
          · have hm0 : m = 0 := by
              by_contra hm0
              have e1 : permF perm ((permF perm)^[m - 1] i₀) = (permF perm)^[m] i₀ := by
                conv_rhs => rw [show m = m - 1 + 1 from by omega]
                rw [Function.iterate_succ_apply']
              have e2 : permF perm ((permF perm)^[j - 1] i₀) = (permF perm)^[j] i₀ := by
                conv_rhs => rw [show j = j - 1 + 1 from by omega]
                rw [Function.iterate_succ_apply']
              have heq : (permF perm)^[m - 1] i₀ = (permF perm)^[j - 1] i₀ :=
                permF_inj hlen hnd (permF_iterate_lt hlen hmem hi₀ _)
                  (permF_iterate_lt hlen hmem hi₀ _) (e1.trans (hmeq.trans e2.symm))
              exact hdist (m - 1) (j - 1) (by omega) (by omega) heq
            subst hm0
            have hper : (permF perm)^[j] i₀ = i₀ := hmeq.symm
            have hj0 : 0 < j := by omega
            refine ⟨j, hj0, hper, ?_, ?_, ?_, ?_⟩
            · rw [hstep]; exact hvlen
            · rw [hstep]; exact hdlen
            · intro r hr
              rw [hstep]
              rw [hvis r hr]
              constructor
              · rintro (hB | ⟨m', _, hmr⟩)
                · exact Or.inl hB
                · exact Or.inr ⟨m', hmr⟩
              · rintro (hB | ⟨m', hmr⟩)
                · exact Or.inl hB
                · refine Or.inr ⟨m' % j, Nat.mod_lt _ hj0, ?_⟩
                  rw [← iterate_mod_of_period hper m']
                  exact hmr
            · intro r hr
              rw [hstep]
              exact hrows r hr
      | false =>
          -- mark the current row, copy the next row (or temp) into it, recurse
          have hstep : permuteCycle perm M i₀ temp (fuel + 1) ((permF perm)^[j] i₀)
              visited d
              = permuteCycle perm M i₀ temp fuel ((permF perm)^[j + 1] i₀)
                  (visited.set ((permF perm)^[j] i₀) true)
                  (if (permF perm)^[j + 1] i₀ = i₀ then
                    setRow M ((permF perm)^[j] i₀) temp d
                  else
                    setRow M ((permF perm)^[j] i₀)
                      (getRow M ((permF perm)^[j + 1] i₀) d) d) := by
            have hnext : perm.getD ((permF perm)^[j] i₀) 0 = (permF perm)^[j + 1] i₀ := by
              rw [Function.iterate_succ_apply']
              rfl
            simp only [permuteCycle]
            rw [hgetDcur, hvb, if_neg (by simp), hnext]
          have hnextN : (permF perm)^[j + 1] i₀ < N := permF_iterate_lt hlen hmem hi₀ _
          have hrowbound : ∀ r, r < N → r * M + M ≤ d.length := by
            intro r hr
            have h1 : (r + 1) * M ≤ N * M := Nat.mul_le_mul_right M (by omega)
            have h2 : (r + 1) * M = r * M + M := by ring
            omega
          have horowbound : ∀ r, r < N → r * M + M ≤ orig.length := by
            intro r hr
            have h1 : (r + 1) * M ≤ N * M := Nat.mul_le_mul_right M (by omega)
            have h2 : (r + 1) * M = r * M + M := by ring
            omega
          have htemplen : temp.length = M := by
            rw [htemp]
            exact getRow_length (horowbound _ hi₀)
          -- distinctness extends to the new step
          have hdist' : ∀ a b, a < b → b < j + 1 →
              (permF perm)^[a] i₀ ≠ (permF perm)^[b] i₀ := by
            intro a b hab hbj
            by_cases hbj' : b < j
            · exact hdist a b hab hbj'
            · have hb : b = j := by omega
              rw [hb]
              intro hc
              have hvt : visited.getD ((permF perm)^[j] i₀) false = true :=
                (hvis _ hcur).mpr (Or.inr ⟨a, by omega, hc⟩)
              rw [hvb] at hvt
              cases hvt
          -- the next row is unvisited unless it closes the cycle
          have hnextfresh : (permF perm)^[j + 1] i₀ ≠ i₀ →
              visited.getD ((permF perm)^[j + 1] i₀) false = false := by
            intro hni
            cases hvn : visited.getD ((permF perm)^[j + 1] i₀) false with
            | false => rfl
            | true =>
                rcases (hvis _ hnextN).mp hvn with hB | ⟨m, hmj, hmeq⟩
                · exact absurd hB (hBorbit (j + 1))
                · by_cases hm0 : m = 0
                  · subst hm0
                    exact absurd hmeq.symm hni
                  · have e1 : permF perm ((permF perm)^[m - 1] i₀)
                        = (permF perm)^[m] i₀ := by
                      conv_rhs => rw [show m = m - 1 + 1 from by omega]
                      rw [Function.iterate_succ_apply']
                    have e2 : permF perm ((permF perm)^[j] i₀)
                        = (permF perm)^[j + 1] i₀ := by
                      rw [Function.iterate_succ_apply']
                    have heq : (permF perm)^[m - 1] i₀ = (permF perm)^[j] i₀ :=
                      permF_inj hlen hnd (permF_iterate_lt hlen hmem hi₀ _)
                        (permF_iterate_lt hlen hmem hi₀ _) (e1.trans (hmeq.trans e2.symm))
                    have : visited.getD ((permF perm)^[j] i₀) false = true :=
                      (hvis _ hcur).mpr (Or.inr ⟨m - 1, by omega, heq⟩)
                    rw [hvb] at this
                    cases this
          -- the written row now holds the original row perm[cur]
          have hnewrow : getRow M ((permF perm)^[j] i₀)
              (if (permF perm)^[j + 1] i₀ = i₀ then
                setRow M ((permF perm)^[j] i₀) temp d
              else
                setRow M ((permF perm)^[j] i₀) (getRow M ((permF perm)^[j + 1] i₀) d) d)
              = getRow M (permF perm ((permF perm)^[j] i₀)) orig := by
            have hfcur : permF perm ((permF perm)^[j] i₀) = (permF perm)^[j + 1] i₀ := by
              rw [Function.iterate_succ_apply']
            split
            next hni =>
              rw [getRow_setRow_self htemplen (hrowbound _ hcur), htemp, hfcur, hni]
            next hni =>
              rw [getRow_setRow_self (getRow_length (hrowbound _ hnextN))
                (hrowbound _ hcur), hfcur]
              exact (hrows _ hnextN).2 (hnextfresh hni)
          -- rows other than the current one are untouched by the write
          have hotherrow : ∀ r, r ≠ (permF perm)^[j] i₀ →
              getRow M r
                (if (permF perm)^[j + 1] i₀ = i₀ then
                  setRow M ((permF perm)^[j] i₀) temp d
                else
                  setRow M ((permF perm)^[j] i₀) (getRow M ((permF perm)^[j + 1] i₀) d) d)
              = getRow M r d := by
            intro r hrne
            split
            · exact getRow_setRow_ne htemplen (hrowbound _ hcur) hrne
            · exact getRow_setRow_ne (getRow_length (hrowbound _ hnextN))
                (hrowbound _ hcur) hrne
          rw [hstep]
          apply ih (j + 1)
          · exact hdist'
          · intro r hr
            by_cases hrc : r = (permF perm)^[j] i₀
            · subst hrc
              rw [list_getD_set_self _ (by omega)]
              constructor
              · intro _
                exact Or.inr ⟨j, by omega, rfl⟩
              · intro _
                rfl
            · rw [list_getD_set_ne _ hrc]
              rw [hvis r hr]
              constructor
              · rintro (hB | ⟨m, hmj, hmeq⟩)
                · exact Or.inl hB
                · exact Or.inr ⟨m, by omega, hmeq⟩
              · rintro (hB | ⟨m, hmj, hmeq⟩)
                · exact Or.inl hB
                · refine Or.inr ⟨m, ?_, hmeq⟩
                  rcases Nat.lt_or_ge m j with hmj' | hmj'
                  · exact hmj'
                  · exfalso
                    have hm : m = j := by omega
                    subst hm
                    exact hrc hmeq.symm
          · rw [List.length_set]
            exact hvlen
          · split
            · rw [setRow_length htemplen (hrowbound _ hcur)]
              exact hdlen
            · rw [setRow_length (getRow_length (hrowbound _ hnextN)) (hrowbound _ hcur)]
              exact hdlen
          · intro r hr
            by_cases hrc : r = (permF perm)^[j] i₀
            · subst hrc
              constructor
              · intro _
                exact hnewrow
              · intro hc
                rw [list_getD_set_self _ (by omega)] at hc
                cases hc
            · rw [list_getD_set_ne _ hrc, hotherrow r hrc]
              exact hrows r hr
          · have hcard : (Finset.range N).filter
                (fun r => (visited.set ((permF perm)^[j] i₀) true).getD r false = true)
                = insert ((permF perm)^[j] i₀)
                    ((Finset.range N).filter (fun r => visited.getD r false = true)) := by
              ext r
              simp only [Finset.mem_filter, Finset.mem_range, Finset.mem_insert]
              by_cases hrc : r = (permF perm)^[j] i₀
              · subst hrc
                rw [list_getD_set_self _ (by omega)]
                constructor
                · intro _
                  exact Or.inl rfl
                · intro _
                  exact ⟨hcur, rfl⟩
              · rw [list_getD_set_ne _ hrc]
                constructor
                · intro ⟨h1, h2⟩
                  exact Or.inr ⟨h1, h2⟩
                · rintro (hc | ⟨h1, h2⟩)
                  · exact absurd hc hrc
                  · exact ⟨h1, h2⟩
            rw [hcard, Finset.card_insert_of_not_mem]
            · omega
            · intro hc
              rw [Finset.mem_filter] at hc
              rw [hvb] at hc
              cases hc.2

/-- Outer-loop invariant of `permute_rows`: processing any list of row
indices extends the visited set (kept closed under the permutation) so
that it covers every processed index, each visited row holding the
original row `perm[r]` and unvisited rows untouched. -/
theorem permuteRows_foldl_spec {N M : Nat} {perm : List Nat}
    (hlen : perm.length = N) (hmem : ∀ x ∈ perm, x < N) (hnd : perm.Nodup)
    (orig : List R) (horiglen : orig.length = N * M) :
    ∀ (l : List Nat) (st : List Bool × List R) (V : Nat → Prop),
      (∀ i ∈ l, i < N) →
      st.1.length = N → st.2.length = N * M →
      (∀ r, r < N → (st.1.getD r false = true ↔ V r)) →
      (∀ x, x < N → (V x ↔ V (permF perm x))) →
      (∀ r, r < N →
        (V r → getRow M r st.2 = getRow M (permF perm r) orig) ∧
        (¬ V r → getRow M r st.2 = getRow M r orig)) →
      ∃ V' : Nat → Prop,
        (l.foldl (fun acc i =>
          if acc.1.getD i true then acc
          else permuteCycle perm M i (getRow M i acc.2) (N + 1) i acc.1 acc.2) st).1.length
            = N ∧
        (l.foldl (fun acc i =>
          if acc.1.getD i true then acc
          else permuteCycle perm M i (getRow M i acc.2) (N + 1) i acc.1 acc.2) st).2.length
            = N * M ∧
        (∀ r, r < N →
          ((l.foldl (fun acc i =>
            if acc.1.getD i true then acc
            else permuteCycle perm M i (getRow M i acc.2) (N + 1) i acc.1 acc.2) st).1.getD
              r false = true ↔ V' r)) ∧
        (∀ x, x < N → (V' x ↔ V' (permF perm x))) ∧
        (∀ r, r < N →
          (V' r → getRow M r (l.foldl (fun acc i =>
            if acc.1.getD i true then acc
            else permuteCycle perm M i (getRow M i acc.2) (N + 1) i acc.1 acc.2) st).2
              = getRow M (permF perm r) orig) ∧
          (¬ V' r → getRow M r (l.foldl (fun acc i =>
            if acc.1.getD i true then acc
            else permuteCycle perm M i (getRow M i acc.2) (N + 1) i acc.1 acc.2) st).2
              = getRow M r orig)) ∧
        (∀ i ∈ l, V' i) ∧ (∀ r, V r → V' r) := by
  intro l
  induction l with
  | nil =>
      intro st V _ h1 h2 h3 h4 h5
      exact ⟨V, h1, h2, h3, h4, h5, by simp, fun _ h => h⟩
  | cons i rest ihl =>
      intro st V hl h1 h2 h3 h4 h5
      have hiN : i < N := hl i (by simp)
      have hswap : st.1.getD i true = st.1.getD i false := by
        rw [List.getD_eq_getElem _ _ (by omega), List.getD_eq_getElem _ _ (by omega)]
      simp only [List.foldl_cons, hswap]
      cases hvb : st.1.getD i false with
      | true =>
          rw [if_pos rfl]
          obtain ⟨V', c1, c2, c3, c4, c5, c6, c7⟩ := ihl st V
            (fun x hx => hl x (by simp [hx])) h1 h2 h3 h4 h5
          refine ⟨V', c1, c2, c3, c4, c5, ?_, c7⟩
          intro x hx
          rcases List.mem_cons.mp hx with rfl | hx
          · exact c7 x ((h3 x hiN).mp hvb)
          · exact c6 x hx
      | false =>
          rw [if_neg (by simp)]
          have hVi : ¬ V i := fun hV => by
            have := (h3 i hiN).mpr hV
            rw [hvb] at this
            cases this
          have htempeq : getRow M i st.2 = getRow M i orig := (h5 i hiN).2 hVi
          obtain ⟨k, hk0, hper, d1, d2, d3, d4⟩ := permuteCycle_spec hlen hmem hnd orig i
            hiN V h4 hVi (getRow M i st.2) htempeq horiglen (N + 1) 0 st.1 st.2
            (fun a b _ hb => absurd hb (Nat.not_lt_zero b))
            (fun r hr => by
              rw [h3 r hr]
              constructor
              · exact fun h => Or.inl h
              · rintro (h | ⟨m, hm, _⟩)
                · exact h
                · omega)
            h1 h2
            (fun r hr => ⟨fun ht => (h5 r hr).1 ((h3 r hr).mp ht),
              fun hf => (h5 r hr).2 (fun hV => by
                have := (h3 r hr).mpr hV
                rw [hf] at this
                cases this)⟩)
            (by omega)
          -- the new visited set after this cycle
          have hV1f : ∀ x, x < N →
              ((V x ∨ ∃ m, (permF perm)^[m] i = x) ↔
               (V (permF perm x) ∨ ∃ m, (permF perm)^[m] i = permF perm x)) := by
            intro x hx
            constructor
            · rintro (hV | ⟨m, hm⟩)
              · exact Or.inl ((h4 x hx).mp hV)
              · refine Or.inr ⟨m + 1, ?_⟩
                rw [Function.iterate_succ_apply', hm]
            · rintro (hV | ⟨m, hm⟩)
              · exact Or.inl ((h4 x hx).mpr hV)
              · by_cases hm0 : m = 0
                · subst hm0
                  refine Or.inr ⟨k - 1, ?_⟩
                  apply permF_inj hlen hnd (permF_iterate_lt hlen hmem hiN _) hx
                  have ek : permF perm ((permF perm)^[k - 1] i) = (permF perm)^[k] i := by
                    conv_rhs => rw [show k = k - 1 + 1 from by omega]
                    rw [Function.iterate_succ_apply']
                  rw [ek, hper]
                  exact hm
                · refine Or.inr ⟨m - 1, ?_⟩
                  apply permF_inj hlen hnd (permF_iterate_lt hlen hmem hiN _) hx
                  have em : permF perm ((permF perm)^[m - 1] i) = (permF perm)^[m] i := by
                    conv_rhs => rw [show m = m - 1 + 1 from by omega]
                    rw [Function.iterate_succ_apply']
                  rw [em]
                  exact hm
          obtain ⟨V', c1, c2, c3, c4, c5, c6, c7⟩ := ihl
            (permuteCycle perm M i (getRow M i st.2) (N + 1) i st.1 st.2)
            (fun r => V r ∨ ∃ m, (permF perm)^[m] i = r)
            (fun x hx => hl x (by simp [hx])) d1 d2 d3 hV1f
            (fun r hr => ⟨fun hV => (d4 r hr).1 ((d3 r hr).mpr hV),
              fun hV => (d4 r hr).2
                (Bool.eq_false_iff.mpr (fun hx => hV ((d3 r hr).mp hx)))⟩)
          refine ⟨V', c1, c2, c3, c4, c5, ?_, ?_⟩
          · intro x hx
            rcases List.mem_cons.mp hx with rfl | hx
            · exact c7 x (Or.inr ⟨0, rfl⟩)
            · exact c6 x hx
          · exact fun r hr => c7 r (Or.inl hr)

theorem eyeData_length (n : Nat) : (eyeData n : List R).length = n * n := by
  unfold eyeData
  have hfold : ∀ (l : List Nat) (d : List R),
      (l.foldl (fun d i => d.set (i * n + i) 1) d).length = d.length := by
    intro l
    induction l with
    | nil => intro d; rfl
    | cons x l ihl =>
        intro d
        rw [List.foldl_cons, ihl, List.length_set]
  rw [hfold, List.length_replicate]

theorem foldl_set_getD (n : Nat) : ∀ (l : List Nat) (d : List R) (k : Nat),
    d.length = n * n → (∀ x ∈ l, x < n) → k < n * n →
    (l.foldl (fun d i => d.set (i * n + i) 1) d).getD k 0
      = if ∃ x ∈ l, x * n + x = k then (1 : R) else d.getD k 0 := by
  intro l
  induction l with
  | nil =>
      intro d k _ _ _
      simp
  | cons x l ihl =>
      intro d k hd hx hk
      rw [List.foldl_cons]
      rw [ihl _ k (by rw [List.length_set]; exact hd)
        (fun y hy => hx y (by simp [hy])) hk]
      have hxn : x < n := hx x (by simp)
      have hxb : x * n + x < n * n := by
        have h1 : (x + 1) * n ≤ n * n := Nat.mul_le_mul_right n (by omega)
        have h2 : (x + 1) * n = x * n + n := by ring
        omega
      by_cases he : ∃ y ∈ l, y * n + y = k
      · rw [if_pos he, if_pos (by
          obtain ⟨y, hy, hyk⟩ := he
          exact ⟨y, by simp [hy], hyk⟩)]
      · rw [if_neg he]
        by_cases hkx : x * n + x = k
        · rw [if_pos ⟨x, by simp, hkx⟩, ← hkx]
          rw [list_getD_set_self _ (by omega)]
        · rw [if_neg (by
            rintro ⟨y, hy, hyk⟩
            rcases List.mem_cons.mp hy with rfl | hy
            · exact hkx hyk
            · exact he ⟨y, hy, hyk⟩)]
          rw [list_getD_set_ne _ (Ne.symm hkx)]

theorem eyeData_getD {n a b : Nat} (ha : a < n) (hb : b < n) :
    (eyeData n : List R).getD (a * n + b) 0 = if a = b then 1 else 0 := by
  unfold eyeData
  have hk : a * n + b < n * n := by
    have h1 : (a + 1) * n ≤ n * n := Nat.mul_le_mul_right n (by omega)
    have h2 : (a + 1) * n = a * n + n := by ring
    omega
  rw [foldl_set_getD n (List.range n) _ _ (by rw [List.length_replicate])
    (fun x hx => List.mem_range.mp hx) hk]
  by_cases hab : a = b
  · rw [if_pos ⟨a, List.mem_range.mpr ha, by rw [hab]⟩, if_pos hab]
  · rw [if_neg ?_, if_neg hab]
    · rw [List.getD_eq_getElem _ _ (by simp [hk])]
      simp
    · rintro ⟨x, hxr, hxk⟩
      have hxn := List.mem_range.mp hxr
      rcases Nat.lt_trichotomy x a with hlt | heq | hgt
      · have h1 : (x + 1) * n ≤ a * n := Nat.mul_le_mul_right n (by omega)
        have h2 : (x + 1) * n = x * n + n := by ring
        omega
      · subst heq
        omega
      · have h1 : (a + 1) * n ≤ x * n := Nat.mul_le_mul_right n (by omega)
        have h2 : (a + 1) * n = a * n + n := by ring
        omega

/-! ## Claim C9 — permute_rows on the identity matrix -/

/-- C9: confirmed.  For every `n` and every valid permutation `perm` of
`[0, n)`, applying `permute_rows(perm)` to the `n × n` identity produced
by `eye` yields data with a `1` exactly at column `perm[i]` of row `i`
and `0` at every other position, for all rows `i`. -/
theorem permuteRows_eye_unit_rows (n : Nat) (perm : List Nat)
    (hvp : ValidPerm n perm) (rg : Bool) (t' : TensorNode R)
    (h : permuteRows (eyeT n rg) perm = .ok t') :
    ∀ i j, i < n → j < n →
      t'.data.getD (i * n + j) 0 = if j = perm.getD i 0 then 1 else 0 := by
  obtain ⟨hlen, hmem, hnd⟩ := hvp
  intro i j hi hj
  have hn : 0 < n := by omega
  have hsh0 : (eyeT (R := R) n rg).shape.getD 0 0 = n := rfl
  have hsh1 : (eyeT (R := R) n rg).shape.getD 1 0 = n := rfl
  have hdata : (eyeT (R := R) n rg).data = eyeData n := by
    have hne : (eyeData n : List R) ≠ [] := by
      intro hc
      have hl := eyeData_length (R := R) n
      rw [hc] at hl
      have hpos := Nat.mul_pos hn hn
      simp at hl
      omega
    have hE : (eyeData n : List R).isEmpty = false :=
      Bool.eq_false_iff.mpr (fun hc => hne (List.isEmpty_iff.mp hc))
    unfold eyeT mkTensor
    rw [hE]
    simp
  unfold permuteRows at h
  rw [if_neg (by rw [show (eyeT (R := R) n rg).shape = [n, n] from rfl]; simp)] at h
  rw [hsh0, hsh1, hdata] at h
  simp only [Except.ok.injEq] at h
  subst h
  obtain ⟨V', c1, c2, c3, c4, c5, c6, c7⟩ := permuteRows_foldl_spec hlen hmem hnd
    (eyeData n) (eyeData_length n) (List.range n)
    (List.replicate n false, eyeData (R := R) n) (fun _ => False)
    (fun x hx => List.mem_range.mp hx)
    (by simp)
    (eyeData_length n)
    (fun r hr => by
      rw [List.getD_eq_getElem _ _ (by simp [hr])]
      simp)
    (fun x _ => Iff.rfl)
    (fun r hr => ⟨fun hF => hF.elim, fun _ => rfl⟩)
  have hall : V' i := c6 i (List.mem_range.mpr hi)
  have hrow := (c5 i hi).1 hall
  dsimp only
  rw [← getRow_getD (r := i) j hj, hrow, getRow_getD j hj]
  have hfi : permF perm i < n := permF_lt hlen hmem hi
  rw [eyeData_getD hfi hj]
  have hpf : permF perm i = perm.getD i 0 := rfl
  by_cases hc : permF perm i = j
  · rw [if_pos hc, if_pos (by rw [← hpf, hc])]
  · rw [if_neg hc, if_neg (fun hcc => hc (by rw [hpf, ← hcc]))]

/-- The permuted identity for the witness: `eye(3)` with rows reordered
by the permutation `[2, 0, 1]`. -/
def eyePermT : TensorNode ℤ :=
  { mkTensor (R := ℤ) [3, 3] (eyeData 3) false [] with
    data := [0, 0, 1, 1, 0, 0, 0, 1, 0] }

/-- Witness for C9 at `n = 3`, `perm = [2, 0, 1]`. -/
theorem permuteRows_eye_unit_rows_witness :
    (ValidPerm 3 [2, 0, 1] ∧
      permuteRows (eyeT (R := ℤ) 3 false) [2, 0, 1] = .ok eyePermT) ∧
    (∀ i j, i < 3 → j < 3 →
      eyePermT.data.getD (i * 3 + j) 0 = if j = [2, 0, 1].getD i 0 then 1 else 0) :=
  ⟨⟨by decide, rfl⟩,
    permuteRows_eye_unit_rows 3 [2, 0, 1] (by decide) false eyePermT rfl⟩

end AmscGrad
